import Mathlib

/-!
# Verification of the fips204 ML-DSA core

A shallow embedding of the core of the `fips204` Rust crate (FIPS 204 /
ML-DSA), covering the NTT engine (`src/ntt.rs`), the key/signature
encodings (`src/encodings.rs`) and the decode stage of verification
(`src/traits.rs`), together with proofs of the specified properties.

Machine integers are modelled as `Int`/`Nat`; the Rust `i32`/`i64`
arithmetic in the NTT never overflows on the inputs considered (this is
itself one of the proved properties), so plain integer arithmetic is a
faithful model there.  Byte strings are `List Nat` with bytes `< 256`;
polynomials (the Rust `R` / `T` types: 256-element `i32` arrays) are
modelled as `Nat → Int` for the NTT (indices `≥ 256` unused) and as
`List Int` of length 256 for the encodings.

The crate's `helpers.rs` and `conversion.rs` (field arithmetic, bit
packing) and `ml_dsa.rs` (orchestrator) are not part of the source tree
available here; the definitions that stand in for them are modelled from
the specification and are marked `Modelled from the spec:` in their doc
comments.
-/

namespace Fips204

/-! ## Section 1: definitions

### Field arithmetic (spec §4.1; `helpers.rs` is not in the source tree) -/

/-- The prime modulus q = 8380417 (the crate's `QI: i32`). -/
def QI : Int := 8380417

/-- The prime modulus as a natural number (for `ZMod` coefficients). -/
def QN : Nat := 8380417

/-- The dropped-bits parameter d = 13 (the crate's `D: u32`). -/
def D : Nat := 13

/-- The multiplicative inverse of the Montgomery radix `R = 2^32 mod q`
modulo q: `8265825 * 2^32 ≡ 1 (mod 8380417)`. -/
def RINV : Int := 8265825

/-- Modelled from the spec: `helpers.rs` is not in the source tree.
Spec §4.1: "`mont_reduce(x: i64) → i32` computes `x·R^{−1} mod q` and
returns a result in `(−q, q)`", with `R = 2^32 mod q`.  The spec fixes
only the congruence and the output window, so we take the canonical
representative `x·R⁻¹ mod q ∈ [0, q) ⊂ (−q, q)`. -/
def mont_reduce (x : Int) : Int := x * RINV % QI

/-- Modelled from the spec: `helpers.rs` is not in the source tree.
Spec §4.1: "`full_reduce32(x: i32) → i32` returns the canonical
representative in `[0, q)`". -/
def full_reduce32 (x : Int) : Int := x % QI

/-- Reversal of an 8-bit value: bit j of `k` becomes bit `7 - j`. -/
def brv8 (k : Nat) : Nat :=
  (List.range 8).foldl (fun a j => 2 * a + k / 2 ^ j % 2) 0

/-- Modelled from the spec: `helpers.rs` is not in the source tree.
Spec §4.1: "`ZETA_TABLE_MONT[0..256]` is the bit-reversed table of
`ζ^k · R mod q`, where `ζ = 1753` is a primitive 512th root of unity";
entry `k` holds `ζ^{brv(k)} · R mod q`. -/
def ZETA_TABLE_MONT (k : Nat) : Int := 1753 ^ brv8 k * 2 ^ 32 % QI

/-! ### NTT engine (`src/ntt.rs`)

`ntt`/`inv_ntt` in `ntt.rs` loop over `len` (halving from 128, resp.
doubling from 1), over blocks of size `2·len` (`start` stepping by
`2·len`, i.e. block `b` starts at `2·len·b`), and over `j` inside the
first half of each block, applying one butterfly per `j`; a global
counter `k` selects the twiddle.  In `ntt`, `k` starts at 0 and is
incremented before each block, so block `b` at level `len` uses
`k = 128/len + b` (the blocks of previous levels number `128/len - 1`,
plus one pre-increment).  In `inv_ntt`, `k` starts at 256 and is
decremented before each block, so block `b` at level `len` uses
`k = 256/len - 1 - b`.  We record each butterfly as an op `(j, len, k)`
and the transform as a left fold of the butterfly over the op list, in
source order. -/

/-- The butterfly of `ntt` (`ntt.rs` lines 44-56): with
`t = mont_reduce(ZETA_TABLE_MONT[k] * w[j+len])`, set
`w[j+len] ← w[j] - t` and `w[j] ← w[j] + t` (both reads of `w[j]` see
the old value). -/
def nttButterfly (v : Nat → Int) (j len k : Nat) : Nat → Int :=
  let t := mont_reduce (ZETA_TABLE_MONT k * v (j + len))
  fun i => if i = j then v j + t else if i = j + len then v j - t else v i

/-- The butterfly ops `(j, len, k)` of one level (`len` value) of `ntt`:
block `b` starts at `start = 2·len·b` and uses `k = 128/len + b`;
`j` ranges over the first half of the block. -/
def opsF (len : Nat) : List (Nat × Nat × Nat) :=
  (List.range (128 / len)).flatMap fun b =>
    (List.range len).map fun o => (2 * len * b + o, len, 128 / len + b)

/-- The `len` values of the levels of `ntt`, in execution order. -/
def lensF : List Nat := [128, 64, 32, 16, 8, 4, 2, 1]

/-- The ops `(j, len, k)` of `ntt`, in execution order. -/
def nttOps : List (Nat × Nat × Nat) := lensF.flatMap opsF

/-- One fold step of `ntt`: apply the butterfly named by op `(j, len, k)`. -/
def nttStep (v : Nat → Int) (op : Nat × Nat × Nat) : Nat → Int :=
  nttButterfly v op.1 op.2.1 op.2.2

/-- # Algorithm 35 NTT(w) (`ntt.rs` `ntt`), for one polynomial; the Rust
function maps this over the `X` polynomials of its input vector. -/
def ntt (w : Nat → Int) : Nat → Int :=
  nttOps.foldl nttStep w

/-- The butterfly of `inv_ntt` (`ntt.rs` lines 119-135): with
`t = w[j]` and `zeta = -ZETA_TABLE_MONT[k]`, set `w[j] ← t + w[j+len]`
and `w[j+len] ← mont_reduce(zeta * (t - w[j+len]))` (reading the old
`w[j+len]`). -/
def invButterfly (v : Nat → Int) (j len k : Nat) : Nat → Int :=
  let t := v j
  let u := v (j + len)
  fun i =>
    if i = j then t + u
    else if i = j + len then mont_reduce (-ZETA_TABLE_MONT k * (t - u))
    else v i

/-- The butterfly ops `(j, len, k)` of one level of `inv_ntt`: block `b`
starts at `2·len·b` and uses `k = 256/len - 1 - b`. -/
def opsI (len : Nat) : List (Nat × Nat × Nat) :=
  (List.range (128 / len)).flatMap fun b =>
    (List.range len).map fun o => (2 * len * b + o, len, 256 / len - 1 - b)

/-- The `len` values of the levels of `inv_ntt`, in execution order. -/
def lensI : List Nat := [1, 2, 4, 8, 16, 32, 64, 128]

/-- The ops `(j, len, k)` of `inv_ntt`, in execution order. -/
def invOps : List (Nat × Nat × Nat) := lensI.flatMap opsI

/-- The scalar `F = 8347681 · 2^32 mod q` of `inv_ntt`
(`ntt.rs` line 86), `8347681 = 256⁻¹ mod q`. -/
def F_SCALAR : Int := 8347681 * 2 ^ 32 % QI

/-- One fold step of `inv_ntt`'s butterfly network. -/
def invStep (v : Nat → Int) (op : Nat × Nat × Nat) : Nat → Int :=
  invButterfly v op.1 op.2.1 op.2.2

/-- # Algorithm 36 NTT⁻¹(w_hat) (`ntt.rs` `inv_ntt`), for one
polynomial: the butterfly fold followed by the final scalar pass
`w[j] ← full_reduce32(mont_reduce(F * w[j]))` over the 256 entries. -/
def inv_ntt (w : Nat → Int) : Nat → Int :=
  let v := invOps.foldl invStep w
  fun i => if i < 256 then full_reduce32 (mont_reduce (F_SCALAR * v i)) else v i

/-! ### Residue-level mirrors of the NTT (proof artifacts)

The same butterfly networks with coefficients in `ZMod QN`; `mont_reduce`
becomes multiplication by `rinv = R⁻¹` and the Montgomery-form twiddle
`ZETA_TABLE_MONT[k] = ζ^{brv(k)}·R` collapses to `zetaZ k = ζ^{brv(k)}`. -/

/-- `R⁻¹ mod q` as a residue. -/
def rinv : ZMod QN := 8265825

/-- The plain (non-Montgomery) twiddle `ζ^{brv(k)}` as a residue. -/
def zetaZ (k : Nat) : ZMod QN := 1753 ^ brv8 k

/-- Residue-level forward butterfly. -/
def nttButterflyZ (v : Nat → ZMod QN) (j len k : Nat) : Nat → ZMod QN :=
  let t := zetaZ k * v (j + len)
  fun i => if i = j then v j + t else if i = j + len then v j - t else v i

/-- Residue-level inverse butterfly. -/
def invButterflyZ (v : Nat → ZMod QN) (j len k : Nat) : Nat → ZMod QN :=
  let t := v j
  let u := v (j + len)
  fun i =>
    if i = j then t + u
    else if i = j + len then -zetaZ k * (t - u)
    else v i

/-- One fold step of the residue-level forward transform. -/
def nttStepZ (v : Nat → ZMod QN) (op : Nat × Nat × Nat) : Nat → ZMod QN :=
  nttButterflyZ v op.1 op.2.1 op.2.2

/-- One fold step of the residue-level inverse butterfly network. -/
def invStepZ (v : Nat → ZMod QN) (op : Nat × Nat × Nat) : Nat → ZMod QN :=
  invButterflyZ v op.1 op.2.1 op.2.2

/-- Residue-level forward transform (no reduction pass needed). -/
def nttZ (w : Nat → ZMod QN) : Nat → ZMod QN :=
  nttOps.foldl nttStepZ w

/-- Residue-level inverse butterfly network (without the final scalar pass). -/
def invZpre (w : Nat → ZMod QN) : Nat → ZMod QN :=
  invOps.foldl invStepZ w

/-- The two cells `{j, j+len}` touched by op `o₁` are disjoint from those
of `o₂`, pairwise along the list: each cell is read and written by at
most one butterfly of a level. -/
def OpsDisjoint (ops : List (Nat × Nat × Nat)) : Prop :=
  ops.Pairwise fun o1 o2 =>
    o1.1 ≠ o2.1 ∧ o1.1 ≠ o2.1 + o2.2.1 ∧
    o1.1 + o1.2.1 ≠ o2.1 ∧ o1.1 + o1.2.1 ≠ o2.1 + o2.2.1

/-- All cells touched by the ops lie below 256 (the array size). -/
def OpsInRange (ops : List (Nat × Nat × Nat)) : Prop :=
  ∀ o ∈ ops, o.1 + o.2.1 < 256

/-- Residue-level forward transform, structured level by level. -/
def foldFlayers (ls : List Nat) (v : Nat → ZMod QN) : Nat → ZMod QN :=
  ls.foldl (fun v l => List.foldl nttStepZ v (opsF l)) v

/-- Residue-level inverse butterfly network, structured level by level. -/
def foldIlayers (ls : List Nat) (v : Nat → ZMod QN) : Nat → ZMod QN :=
  ls.foldl (fun v l => List.foldl invStepZ v (opsI l)) v

/-! ### Bit-level codec (spec §4.3; `conversion.rs` is not in the source tree)

Byte strings are `List Nat` (each entry a byte value `< 256`);
polynomials on the encoding side are `List Int` of length 256. -/

/-- Number of binary digits, by fuel-bounded halving (`fuel = n` always
suffices since `n < 2^n`); equals `Nat.size` (proved below). -/
def bitlenFuel : Nat → Nat → Nat
  | 0, _ => 0
  | fuel + 1, n => if n = 0 then 0 else bitlenFuel fuel (n / 2) + 1

/-- Modelled from the spec: `helpers.rs` (`bit_length`) is not in the
source tree.  `bitlen x` = number of bits of `x` (`bit_length (QI-1) = 23`). -/
def bit_length (x : Int) : Nat := bitlenFuel x.toNat x.toNat

/-- Modelled from the spec and the source comments ("lower `is_in_range`
is a positive number, that is converted to negative"): every coefficient
of `r` lies in `[-lo, hi]`. -/
def is_in_range (r : List Int) (lo hi : Int) : Bool :=
  r.all fun c => decide (-lo ≤ c) && decide (c ≤ hi)

/-- Little-endian base-256 digits of `n`, `len` bytes. -/
def natToBytes : Nat → Nat → List Nat
  | 0, _ => []
  | len + 1, n => n % 256 :: natToBytes len (n / 256)

/-- Value of a little-endian byte string. -/
def bytesToNat : List Nat → Nat
  | [] => 0
  | b :: bs => b + 256 * bytesToNat bs

/-- Value of the little-endian `w`-bit-field stream of the coefficients. -/
def coeffsToNat (w : Nat) : List Int → Nat
  | [] => 0
  | c :: cs => c.toNat % 2 ^ w + 2 ^ w * coeffsToNat w cs

/-- Split `n` into `k` little-endian `w`-bit fields. -/
def natToCoeffs (w : Nat) : Nat → Nat → List Int
  | 0, _ => []
  | k + 1, n => ((n % 2 ^ w : Nat) : Int) :: natToCoeffs w k (n / 2 ^ w)

/-- Modelled from the spec: `conversion.rs` (`simple_bit_pack`) is not in
the source tree.  Spec §4.3: "`SimpleBitPack(poly, b)` packs 256
non-negative coefficients each in `[0, b]` into `⌈log₂(b+1)⌉·32` bytes,
little-endian bit order": bit `w·i+t` of the byte stream is bit `t` of
coefficient `i`, which is exactly the base-256 serialization of
`Σ cᵢ·2^{w·i}`. -/
def simple_bit_pack (c : List Int) (b : Int) : List Nat :=
  natToBytes (32 * bit_length b) (coeffsToNat (bit_length b) c)

/-- Modelled from the spec: `conversion.rs` (`simple_bit_unpack`) is not
in the source tree; inverse of `simple_bit_pack` (spec §4.3; range
validation is done by the callers shown in `encodings.rs`). -/
def simple_bit_unpack (bs : List Nat) (b : Int) : List Int :=
  natToCoeffs (bit_length b) 256 (bytesToNat bs)

/-- Modelled from the spec: `conversion.rs` (`bit_pack`) is not in the
source tree.  Spec §4.3: "`BitPack(poly, a, b)` packs coefficients in
`[−a, b]` by first replacing each coefficient `c` with `b−c`
(non-negative), then bit-packing with width `bitlen(a+b)`". -/
def bit_pack (c : List Int) (a b : Int) : List Nat :=
  simple_bit_pack (c.map fun x => b - x) (a + b)

/-- Modelled from the spec: `conversion.rs` (`bit_unpack`) is not in the
source tree; inverse of `bit_pack` (recover `r` and return `b − r`). -/
def bit_unpack (bs : List Nat) (a b : Int) : List Int :=
  (simple_bit_unpack bs (a + b)).map fun r => b - r

/-- Positions (in increasing order) of the nonzero coefficients. -/
def positionsOf (p : List Int) : List Nat :=
  (List.range 256).filter fun j => p.getD j 0 != 0

/-- Cumulative sums: `[n₁, n₂, …] ↦ [n₁, n₁+n₂, …]`. -/
def cumCounts : List Nat → List Nat
  | [] => []
  | n :: ns => n :: (cumCounts ns).map (n + ·)

/-- Modelled from the spec: `conversion.rs` (`hint_bit_pack`, FIPS 204
Algorithm 14) is not in the source tree.  Spec §4.3: "emits ω bytes of
coefficient indices followed by k boundary bytes.  For each polynomial
`i`, append the positions (as single bytes) of all nonzero coefficients
of `h[i]` in increasing order, zero-padding to ω total index bytes
overall; then write a cumulative running count after each polynomial's
indices."  Fails when the indices do not fit in ω bytes. -/
def hint_bit_pack (omega : Nat) (h : List (List Int)) : Except String (List Nat) :=
  let idx := (h.map positionsOf).flatten
  if idx.length ≤ omega then
    .ok ((idx ++ List.replicate (omega - idx.length) 0)
      ++ cumCounts (h.map fun p => (positionsOf p).length))
  else .error "Alg14: too many hint bits"

/-- Adjacent entries strictly increase. -/
def strictIncrB : List Nat → Bool
  | a :: b :: rest => decide (a < b) && strictIncrB (b :: rest)
  | _ => true

/-- The 256-coefficient `{0,1}` polynomial with ones at `seg`. -/
def hintUnpackPoly (seg : List Nat) : List Int :=
  (List.range 256).map fun j => if j ∈ seg then 1 else 0

/-- One polynomial step of `HintBitUnpack` (FIPS 204 Algorithm 15): for
each remaining boundary byte `bound`, reject if `bound < idx` or
`bound > ω`; take the index segment `y[idx..bound)`, reject unless its
entries strictly increase, set those coefficients to 1; after the last
polynomial, reject if any padding byte `y[idx..ω)` is nonzero. -/
def hint_bit_unpack_go (y : List Nat) (omega : Nat) :
    List Nat → Nat → Except String (List (List Int))
  | [], idx =>
      if ((List.range omega).drop idx).all (fun j => y.getD j 0 == 0) then .ok []
      else .error "Alg15: nonzero padding"
  | bound :: rest, idx =>
      if bound < idx || omega < bound then .error "Alg15: bad boundary"
      else
        let seg := (y.take bound).drop idx
        if strictIncrB seg then
          match hint_bit_unpack_go y omega rest bound with
          | .ok hs => .ok (hintUnpackPoly seg :: hs)
          | .error e => .error e
        else .error "Alg15: indices not increasing"

/-- Modelled from the spec: `conversion.rs` (`hint_bit_unpack`, FIPS 204
Algorithm 15) is not in the source tree.  Spec §4.3: "`HintBitUnpack` is
the inverse and MUST reject inputs where (a) any boundary byte is less
than the previous, (b) any boundary byte exceeds ω, (c) zero-padding
bytes after the last real index are nonzero, or (d) indices within a
polynomial are not strictly increasing." -/
def hint_bit_unpack (omega K : Nat) (y : List Nat) : Except String (List (List Int)) :=
  hint_bit_unpack_go y omega ((y.drop omega).take K) 0

/-- The four structural violations of spec §4.3 / §8 on a hint byte
string `y` of length `ω + K` (boundary byte `i` is `y[ω+i]`):
(a) a boundary byte less than the previous one, (b) a boundary byte
exceeding ω, (c) a nonzero zero-padding byte after the last real index,
(d) indices within one polynomial not strictly increasing. -/
def hintViolation (omega K : Nat) (y : List Nat) : Prop :=
  (∃ i, 1 ≤ i ∧ i < K ∧ y.getD (omega + i) 0 < y.getD (omega + i - 1) 0) ∨
  (∃ i, i < K ∧ omega < y.getD (omega + i) 0) ∨
  (1 ≤ K ∧ ∃ j, y.getD (omega + K - 1) 0 ≤ j ∧ j < omega ∧ y.getD j 0 ≠ 0) ∨
  (∃ i, i < K ∧ strictIncrB ((y.take (y.getD (omega + i) 0)).drop
      (if i = 0 then 0 else y.getD (omega + i - 1) 0)) = false)

/-! ### Key and signature encodings (`src/encodings.rs`)

The Rust functions write into fixed-size byte arrays at consecutive,
exactly tiling slice offsets; functionally this is concatenation, and
slicing is `drop`/`take` at the same offsets.  The `ensure!` guards
become `if`/`Except.error`. -/

/-- # Algorithm 16: `pkEncode(ρ,t1)` (`encodings.rs` `pk_encode`).
`K` is the length of `t1`. -/
def pk_encode (p : List Nat) (t1 : List (List Int)) : Except String (List Nat) :=
  if t1.all fun t => is_in_range t 0 (2 ^ (bit_length (QI - 1) - D) - 1) then
    .ok (p ++ (t1.map fun t => simple_bit_pack t (2 ^ (bit_length (QI - 1) - D) - 1)).flatten)
  else .error "Alg16: t1 out of range"

/-- # Algorithm 17: `pkDecode(pk)` (`encodings.rs` `pk_decode`). -/
def pk_decode (K : Nat) (pk : List Nat) : Except String (List Nat × List (List Int)) :=
  let blqd := bit_length (QI - 1) - D
  let rho := pk.take 32
  let t1 := (List.range K).map fun i =>
    simple_bit_unpack ((pk.drop (32 + 32 * i * blqd)).take (32 * blqd)) (2 ^ blqd - 1)
  if t1.all fun t => is_in_range t 0 (2 ^ (bit_length (QI - 1) - D) - 1) then .ok (rho, t1)
  else .error "Alg17: t1 out of range"

/-- # Algorithm 18: `skEncode(ρ,K,tr,s1,s2,t0)` (`encodings.rs`
`sk_encode`). -/
def sk_encode (eta : Int) (rho k tr : List Nat) (s1 s2 t0 : List (List Int)) :
    Except String (List Nat) :=
  if s1.all fun x => is_in_range x eta eta then
    if s2.all fun x => is_in_range x eta eta then
      if t0.all fun x => is_in_range x (2 ^ (D - 1) - 1) (2 ^ (D - 1)) then
        .ok (rho ++ k ++ tr
          ++ (s1.map fun x => bit_pack x eta eta).flatten
          ++ (s2.map fun x => bit_pack x eta eta).flatten
          ++ (t0.map fun x => bit_pack x (2 ^ (D - 1) - 1) (2 ^ (D - 1))).flatten)
      else .error "Alg18: t0 out of range"
    else .error "Alg18: s2 out of range"
  else .error "Alg18: s1 out of range"

/-- # Algorithm 19: `skDecode(sk)` (`encodings.rs` `sk_decode`). -/
def sk_decode (K L : Nat) (eta : Int) (sk : List Nat) :
    Except String (List Nat × List Nat × List Nat × List (List Int) × List (List Int) × List (List Int)) :=
  let bl := bit_length (2 * eta)
  let rho := sk.take 32
  let k := (sk.drop 32).take 32
  let tr := (sk.drop 64).take 64
  let step := 32 * bl
  let s1 := (List.range L).map fun i => bit_unpack ((sk.drop (128 + i * step)).take step) eta eta
  let s2 := (List.range K).map fun i =>
    bit_unpack ((sk.drop (128 + L * step + i * step)).take step) eta eta
  let t0 := (List.range K).map fun i =>
    bit_unpack ((sk.drop (128 + L * step + K * step + i * (32 * D))).take (32 * D))
      (2 ^ (D - 1) - 1) (2 ^ (D - 1))
  if (s1.all fun r => is_in_range r eta eta)
      && (s2.all fun r => is_in_range r eta eta)
      && (t0.all fun r => is_in_range r (2 ^ (D - 1) - 1) (2 ^ (D - 1))) then
    .ok (rho, k, tr, s1, s2, t0)
  else .error "Invalid sk_decode deserialization"

/-- # Algorithm 20: `sigEncode(c̃,z,h)` (`encodings.rs` `sig_encode`). -/
def sig_encode (gamma1 : Int) (omega : Nat) (c_tilde : List Nat) (z h : List (List Int)) :
    Except String (List Nat) :=
  if z.all fun x => is_in_range x (gamma1 - 1) gamma1 then
    if h.all fun x => is_in_range x 0 1 then
      match hint_bit_pack omega h with
      | .ok hbytes =>
          .ok (c_tilde ++ (z.map fun x => bit_pack x (gamma1 - 1) gamma1).flatten ++ hbytes)
      | .error e => .error e
    else .error "Alg20: h out of range"
  else .error "Alg20: z out of range"

/-- # Algorithm 21: `sigDecode(σ)` (`encodings.rs` `sig_decode`). -/
def sig_decode (gamma1 : Int) (omega K L lambda_div4 : Nat) (sigma : List Nat) :
    Except String (List Nat × List (List Int) × Option (List (List Int))) :=
  let c_tilde := sigma.take lambda_div4
  let step := 32 * (bit_length (gamma1 - 1) + 1)
  let z := (List.range L).map fun i =>
    bit_unpack ((sigma.drop (lambda_div4 + i * step)).take step) (gamma1 - 1) gamma1
  match hint_bit_unpack omega K (sigma.drop (lambda_div4 + L * step)) with
  | .ok h => .ok (c_tilde, z, some h)
  | .error e => .error e

/-- Modelled from the spec: the body of `Verifier::try_verify`
(`ml_dsa.rs` `verify`) is not in the source tree.  §4.6 step 1 decodes
`pk` and `σ`; the hash-based remainder (steps 2-7, SHAKE-dependent) is
abstracted as the parameter `rest`, which cannot error.  The error
disposition of the decode stage is fixed by the in-tree declaration
(`src/traits.rs`: "# Errors: Returns an error on a malformed signature")
and the in-tree test (`tests/integration.rs` `forever`, which guards
`ver.is_ok()`): decode failures propagate as errors. -/
def try_verify
    (rest : List Nat × List (List Int) →
      List Nat × List (List Int) × Option (List (List Int)) → Bool)
    (gamma1 : Int) (omega K L lambda_div4 : Nat) (pk sigma : List Nat) :
    Except String Bool := do
  let d1 ← pk_decode K pk
  let d2 ← sig_decode gamma1 omega K L lambda_div4 sigma
  pure (rest d1 d2)

end Fips204

namespace Fips204

/-! ## Section 2: theorems

### Generic facts about folds of two-cell ops

Each butterfly op `(j, len, k)` reads and writes exactly the two cells
`j` and `j + len`.  When the ops of a list touch pairwise disjoint cell
pairs (as the ops of one NTT level do), a fold over the list acts on
each touched cell exactly once, reading original values. -/

theorem foldl_op_untouched {A : Type} (f : (Nat → A) → Nat × Nat × Nat → Nat → A)
    (h1 : ∀ v op i, i ≠ op.1 → i ≠ op.1 + op.2.1 → f v op i = v i)
    (ops : List (Nat × Nat × Nat)) (v : Nat → A) (i : Nat)
    (hi : ∀ o ∈ ops, i ≠ o.1 ∧ i ≠ o.1 + o.2.1) :
    List.foldl f v ops i = v i := by
  induction ops generalizing v with
  | nil => rfl
  | cons a l ih =>
      rw [List.foldl_cons, ih (f v a) (fun o ho => hi o (List.mem_cons_of_mem a ho))]
      exact h1 v a i (hi a (List.mem_cons_self a l)).1 (hi a (List.mem_cons_self a l)).2

theorem foldl_op_touched {A : Type} (f : (Nat → A) → Nat × Nat × Nat → Nat → A)
    (h1 : ∀ v op i, i ≠ op.1 → i ≠ op.1 + op.2.1 → f v op i = v i)
    (h2 : ∀ v w op i, v op.1 = w op.1 → v (op.1 + op.2.1) = w (op.1 + op.2.1) →
      (i = op.1 ∨ i = op.1 + op.2.1) → f v op i = f w op i)
    (ops : List (Nat × Nat × Nat)) (hd : OpsDisjoint ops)
    (o : Nat × Nat × Nat) (ho : o ∈ ops) (v : Nat → A) (i : Nat)
    (hi : i = o.1 ∨ i = o.1 + o.2.1) :
    List.foldl f v ops i = f v o i := by
  induction ops generalizing v with
  | nil => cases ho
  | cons a l ih =>
      rw [List.foldl_cons]
      rcases List.mem_cons.mp ho with rfl | hol
      · have hrest : ∀ o' ∈ l, i ≠ o'.1 ∧ i ≠ o'.1 + o'.2.1 := by
          intro o' ho'
          have hR := (List.pairwise_cons.mp hd).1 o' ho'
          rcases hi with rfl | rfl
          · exact ⟨hR.1, hR.2.1⟩
          · exact ⟨hR.2.2.1, hR.2.2.2⟩
        exact foldl_op_untouched f h1 l (f v o) i hrest
      · have hR := (List.pairwise_cons.mp hd).1 o hol
        rw [ih (List.pairwise_cons.mp hd).2 hol (f v a)]
        exact h2 (f v a) v o i
          (h1 v a o.1 (Ne.symm hR.1) (Ne.symm hR.2.2.1))
          (h1 v a (o.1 + o.2.1) (Ne.symm hR.2.1) (Ne.symm hR.2.2.2)) hi

/-! ### The four step functions read/write only their two cells -/

theorem nttStep_untouched :
    ∀ (v : Nat → Int) op i, i ≠ op.1 → i ≠ op.1 + op.2.1 → nttStep v op i = v i := by
  intro v op i hj hjl
  simp only [nttStep, nttButterfly]
  rw [if_neg hj, if_neg hjl]

theorem nttStep_congr :
    ∀ (v w : Nat → Int) op i, v op.1 = w op.1 → v (op.1 + op.2.1) = w (op.1 + op.2.1) →
      (i = op.1 ∨ i = op.1 + op.2.1) → nttStep v op i = nttStep w op i := by
  intro v w op i hj hjl hi
  simp only [nttStep, nttButterfly]
  split_ifs with hA hB
  · rw [hj, hjl]
  · rw [hj, hjl]
  · rcases hi with rfl | rfl
    · exact (hA rfl).elim
    · exact (hB rfl).elim

theorem invStep_untouched :
    ∀ (v : Nat → Int) op i, i ≠ op.1 → i ≠ op.1 + op.2.1 → invStep v op i = v i := by
  intro v op i hj hjl
  simp only [invStep, invButterfly]
  rw [if_neg hj, if_neg hjl]

theorem invStep_congr :
    ∀ (v w : Nat → Int) op i, v op.1 = w op.1 → v (op.1 + op.2.1) = w (op.1 + op.2.1) →
      (i = op.1 ∨ i = op.1 + op.2.1) → invStep v op i = invStep w op i := by
  intro v w op i hj hjl hi
  simp only [invStep, invButterfly]
  split_ifs with hA hB
  · rw [hj, hjl]
  · rw [hj, hjl]
  · rcases hi with rfl | rfl
    · exact (hA rfl).elim
    · exact (hB rfl).elim

theorem nttStepZ_untouched :
    ∀ (v : Nat → ZMod QN) op i, i ≠ op.1 → i ≠ op.1 + op.2.1 → nttStepZ v op i = v i := by
  intro v op i hj hjl
  simp only [nttStepZ, nttButterflyZ]
  rw [if_neg hj, if_neg hjl]

theorem nttStepZ_congr :
    ∀ (v w : Nat → ZMod QN) op i, v op.1 = w op.1 → v (op.1 + op.2.1) = w (op.1 + op.2.1) →
      (i = op.1 ∨ i = op.1 + op.2.1) → nttStepZ v op i = nttStepZ w op i := by
  intro v w op i hj hjl hi
  simp only [nttStepZ, nttButterflyZ]
  split_ifs with hA hB
  · rw [hj, hjl]
  · rw [hj, hjl]
  · rcases hi with rfl | rfl
    · exact (hA rfl).elim
    · exact (hB rfl).elim

theorem invStepZ_untouched :
    ∀ (v : Nat → ZMod QN) op i, i ≠ op.1 → i ≠ op.1 + op.2.1 → invStepZ v op i = v i := by
  intro v op i hj hjl
  simp only [invStepZ, invButterflyZ]
  rw [if_neg hj, if_neg hjl]

theorem invStepZ_congr :
    ∀ (v w : Nat → ZMod QN) op i, v op.1 = w op.1 → v (op.1 + op.2.1) = w (op.1 + op.2.1) →
      (i = op.1 ∨ i = op.1 + op.2.1) → invStepZ v op i = invStepZ w op i := by
  intro v w op i hj hjl hi
  simp only [invStepZ, invButterflyZ]
  split_ifs with hA hB
  · rw [hj, hjl]
  · rw [hj, hjl]
  · rcases hi with rfl | rfl
    · exact (hA rfl).elim
    · exact (hB rfl).elim

/-! ### Structure of one level's op list -/

theorem opsGen_disjoint (len : Nat) (hlen : 0 < len) (kf : Nat → Nat) :
    OpsDisjoint ((List.range (128 / len)).flatMap fun b =>
      (List.range len).map fun o => (2 * len * b + o, len, kf b)) := by
  unfold OpsDisjoint
  rw [List.pairwise_flatMap]
  constructor
  · intro b _
    rw [List.pairwise_map]
    refine (List.pairwise_lt_range len).imp_of_mem ?_
    intro o1 o2 h1 h2 hlt
    have hm1 := List.mem_range.mp h1
    have hm2 := List.mem_range.mp h2
    dsimp only
    refine ⟨by omega, by omega, by omega, by omega⟩
  · refine (List.pairwise_lt_range (128 / len)).imp_of_mem ?_
    intro b1 b2 hb1 hb2 hlt x hx y hy
    simp only [List.mem_map, List.mem_range] at hx hy
    obtain ⟨o1, ho1, rfl⟩ := hx
    obtain ⟨o2, ho2, rfl⟩ := hy
    have key : 2 * len * b1 + 2 * len ≤ 2 * len * b2 := by
      have : b1 + 1 ≤ b2 := hlt
      calc 2 * len * b1 + 2 * len = 2 * len * (b1 + 1) := by ring
        _ ≤ 2 * len * b2 := Nat.mul_le_mul_left _ this
    dsimp only
    refine ⟨by omega, by omega, by omega, by omega⟩

theorem opsF_disjoint (len : Nat) (hlen : 0 < len) : OpsDisjoint (opsF len) :=
  opsGen_disjoint len hlen _

theorem opsI_disjoint (len : Nat) (hlen : 0 < len) : OpsDisjoint (opsI len) :=
  opsGen_disjoint len hlen _

theorem opsGen_inRange (len : Nat) (hdvd : len * (128 / len) = 128) (kf : Nat → Nat) :
    OpsInRange ((List.range (128 / len)).flatMap fun b =>
      (List.range len).map fun o => (2 * len * b + o, len, kf b)) := by
  intro o ho
  simp only [List.mem_flatMap, List.mem_map, List.mem_range] at ho
  obtain ⟨b, hb, o', ho', rfl⟩ := ho
  have key : 2 * len * (b + 1) ≤ 256 := by
    calc 2 * len * (b + 1) ≤ 2 * len * (128 / len) := by
          exact Nat.mul_le_mul_left _ hb
      _ = 2 * (len * (128 / len)) := by ring
      _ = 256 := by rw [hdvd]
  have expand : 2 * len * (b + 1) = 2 * len * b + 2 * len := by ring
  dsimp only
  omega

theorem opsF_inRange (len : Nat) (hdvd : len * (128 / len) = 128) : OpsInRange (opsF len) :=
  opsGen_inRange len hdvd _

theorem opsI_inRange (len : Nat) (hdvd : len * (128 / len) = 128) : OpsInRange (opsI len) :=
  opsGen_inRange len hdvd _

theorem mem_opsF (len b o : Nat) (hb : b < 128 / len) (ho : o < len) :
    (2 * len * b + o, len, 128 / len + b) ∈ opsF len := by
  unfold opsF
  exact List.mem_flatMap.mpr ⟨b, List.mem_range.mpr hb,
    List.mem_map.mpr ⟨o, List.mem_range.mpr ho, rfl⟩⟩

theorem mem_opsI (len b o : Nat) (hb : b < 128 / len) (ho : o < len) :
    (2 * len * b + o, len, 256 / len - 1 - b) ∈ opsI len := by
  unfold opsI
  exact List.mem_flatMap.mpr ⟨b, List.mem_range.mpr hb,
    List.mem_map.mpr ⟨o, List.mem_range.mpr ho, rfl⟩⟩

theorem lensF_facts : ∀ l ∈ lensF, 0 < l ∧ l * (128 / l) = 128 := by decide

end Fips204

namespace Fips204

/-! ### Bounds through the forward butterfly network (towards C10) -/

theorem QI_pos : (0 : Int) < QI := by norm_num [QI]

theorem mont_reduce_nonneg (x : Int) : 0 ≤ mont_reduce x :=
  Int.emod_nonneg _ (by norm_num [QI])

theorem mont_reduce_lt (x : Int) : mont_reduce x < QI :=
  Int.emod_lt_of_pos _ QI_pos

theorem mont_reduce_abs_lt (x : Int) : |mont_reduce x| < QI := by
  rw [abs_of_nonneg (mont_reduce_nonneg x)]
  exact mont_reduce_lt x

/-- One level (a disjoint, in-range op list) grows the sup-norm of the
first 256 cells by at most `QI - 1`. -/
theorem foldl_nttStep_layer_bound (ops : List (Nat × Nat × Nat))
    (hd : OpsDisjoint ops) (hr : OpsInRange ops)
    (v : Nat → Int) (B : Int) (hv : ∀ i, i < 256 → |v i| ≤ B) :
    ∀ i, i < 256 → |List.foldl nttStep v ops i| ≤ B + (QI - 1) := by
  intro i hi
  have hq : (0 : Int) ≤ QI - 1 := by norm_num [QI]
  by_cases hX : ∀ o ∈ ops, i ≠ o.1 ∧ i ≠ o.1 + o.2.1
  · rw [foldl_op_untouched nttStep nttStep_untouched ops v i hX]
    linarith [hv i hi]
  · simp only [not_forall, not_and, not_not] at hX
    obtain ⟨o, ho, hcase⟩ := hX
    have htouch : i = o.1 ∨ i = o.1 + o.2.1 := by
      by_cases h : i = o.1
      · exact Or.inl h
      · exact Or.inr (hcase h)
    rw [foldl_op_touched nttStep nttStep_untouched nttStep_congr ops hd o ho v i htouch]
    have holt : o.1 < 256 := by have := hr o ho; omega
    have hbj : |v o.1| ≤ B := hv o.1 holt
    have hmont := mont_reduce_abs_lt (ZETA_TABLE_MONT o.2.2 * v (o.1 + o.2.1))
    simp only [nttStep, nttButterfly]
    split_ifs with hA hB
    · calc |v o.1 + mont_reduce (ZETA_TABLE_MONT o.2.2 * v (o.1 + o.2.1))|
          ≤ |v o.1| + |mont_reduce (ZETA_TABLE_MONT o.2.2 * v (o.1 + o.2.1))| := abs_add _ _
        _ ≤ B + (QI - 1) := by linarith
    · calc |v o.1 - mont_reduce (ZETA_TABLE_MONT o.2.2 * v (o.1 + o.2.1))|
          ≤ |v o.1| + |mont_reduce (ZETA_TABLE_MONT o.2.2 * v (o.1 + o.2.1))| := by
            rw [sub_eq_add_neg]
            refine (abs_add _ _).trans ?_
            rw [abs_neg]
        _ ≤ B + (QI - 1) := by linarith
    · rcases htouch with rfl | rfl
      · exact (hA rfl).elim
      · exact (hB rfl).elim

/-- Any prefix (`done` with `done ++ todo = lens.flatMap opsF`) of the
forward network keeps every cell below `B + #levels·(QI-1)`. -/
theorem foldl_nttStep_prefix_bound :
    ∀ (lens : List Nat), (∀ l ∈ lens, 0 < l ∧ l * (128 / l) = 128) →
    ∀ (done todo : List (Nat × Nat × Nat)), done ++ todo = lens.flatMap opsF →
    ∀ (v : Nat → Int) (B : Int), (∀ i, i < 256 → |v i| ≤ B) →
    ∀ i, i < 256 → |List.foldl nttStep v done i| ≤ B + lens.length * (QI - 1) := by
  intro lens
  induction lens with
  | nil =>
      intro _ done todo heq v B hv i hi
      simp only [List.flatMap_nil, List.append_eq_nil] at heq
      rw [heq.1]
      simpa using hv i hi
  | cons l ls ih =>
      intro hfacts done todo heq v B hv i hi
      have hl := hfacts l (List.mem_cons_self l ls)
      have hq : (0 : Int) ≤ QI - 1 := by norm_num [QI]
      rw [List.flatMap_cons] at heq
      rcases List.append_eq_append_iff.mp heq with ⟨a2, ha1, _⟩ | ⟨c2, hc1, hc2⟩
      · -- done is a prefix of the first level's ops
        have hdisj : OpsDisjoint done := by
          have hall := opsF_disjoint l hl.1
          rw [ha1] at hall
          exact (List.pairwise_append.mp hall).1
        have hrange : OpsInRange done := by
          intro o ho
          exact opsF_inRange l hl.2 o (ha1 ▸ List.mem_append_left a2 ho)
        have := foldl_nttStep_layer_bound done hdisj hrange v B hv i hi
        have hlen : (0 : Int) ≤ (ls.length : Int) * (QI - 1) := by positivity
        calc |List.foldl nttStep v done i| ≤ B + (QI - 1) := this
          _ ≤ B + (↑(l :: ls).length) * (QI - 1) := by
              simp only [List.length_cons]
              push_cast
              nlinarith
      · -- done contains the whole first level
        rw [hc1, List.foldl_append]
        have hstep := foldl_nttStep_layer_bound (opsF l) (opsF_disjoint l hl.1)
          (opsF_inRange l hl.2) v B hv
        have := ih (fun l' hl' => hfacts l' (List.mem_cons_of_mem l hl')) c2 todo hc2.symm
          (List.foldl nttStep v (opsF l)) (B + (QI - 1)) hstep i hi
        calc |List.foldl nttStep (List.foldl nttStep v (opsF l)) c2 i|
            ≤ B + (QI - 1) + ls.length * (QI - 1) := this
          _ = B + (↑(l :: ls).length) * (QI - 1) := by
              simp only [List.length_cons]
              push_cast
              ring

end Fips204

namespace Fips204

/-! ### Claims C9 and C10 -/

/-- C9: for every NTT-domain input vector, every coefficient of the
`inv_ntt` output lies in the canonical interval `[0, q)` with
`q = 8380417`, because the final scalar multiplication by `256⁻¹` in
Montgomery form is followed by `full_reduce32` on every coefficient.
(The statement needs no bound on the input coefficients: in the integer
model the final `full_reduce32` pass always lands in `[0, q)`.) -/
theorem C9_inv_ntt_canonical (w : Nat → Int) (i : Nat) (hi : i < 256) :
    0 ≤ inv_ntt w i ∧ inv_ntt w i < QI := by
  have hrfl : inv_ntt w i =
      if i < 256 then full_reduce32 (mont_reduce (F_SCALAR * (invOps.foldl invStep w) i))
      else (invOps.foldl invStep w) i := rfl
  rw [hrfl, if_pos hi]
  unfold full_reduce32
  exact ⟨Int.emod_nonneg _ (by norm_num [QI]), Int.emod_lt_of_pos _ QI_pos⟩

/-- Witness for C9 at the zero vector and coefficient 0. -/
theorem C9_inv_ntt_canonical_witness :
    0 ≤ inv_ntt (fun _ => 0) 0 ∧ inv_ntt (fun _ => 0) 0 < QI :=
  C9_inv_ntt_canonical (fun _ => 0) 0 (by decide)

/-- C10: for every input polynomial whose coefficients have magnitude at
most `q`, no signed 32-bit overflow occurs inside `ntt`: after any
prefix `done` of the butterfly op sequence, every cell stays strictly
below `9·q` in magnitude, `9·q` is well within `i32` range, and every
Montgomery-reduced product `t` has `|t| < q`. -/
theorem C10_ntt_no_overflow (p : Nat → Int) (hp : ∀ i, i < 256 → |p i| ≤ QI)
    (done todo : List (Nat × Nat × Nat)) (hsplit : nttOps = done ++ todo)
    (i : Nat) (hi : i < 256) :
    |List.foldl nttStep p done i| < 9 * QI ∧ 9 * QI < 2 ^ 31 ∧
      ∀ x : Int, |mont_reduce x| < QI := by
  refine ⟨?_, by norm_num [QI], mont_reduce_abs_lt⟩
  have hb := foldl_nttStep_prefix_bound lensF lensF_facts done todo hsplit.symm p QI hp i hi
  have h8 : ((lensF.length : Int)) = 8 := by norm_num [lensF]
  rw [h8] at hb
  have : QI + 8 * (QI - 1) = 9 * QI - 8 := by ring
  rw [this] at hb
  linarith

set_option maxRecDepth 4000 in
/-- Witness for C10 at the zero polynomial, the empty prefix, cell 0. -/
theorem C10_ntt_no_overflow_witness :
    (∀ i, i < 256 → |(fun _ => (0 : Int)) i| ≤ QI) ∧
      (|List.foldl nttStep (fun _ => (0 : Int)) [] 0| < 9 * QI ∧ 9 * QI < 2 ^ 31 ∧
        ∀ x : Int, |mont_reduce x| < QI) :=
  ⟨by decide, C10_ntt_no_overflow (fun _ => 0) (by decide) [] nttOps rfl 0 (by decide)⟩

end Fips204

namespace Fips204

/-! ### From integers to residues -/

theorem QI_eq_natCast : QI = (QN : Int) := by norm_num [QI, QN]

theorem intCast_emod_QI (x : Int) : ((x % QI : Int) : ZMod QN) = (x : ZMod QN) := by
  rw [QI_eq_natCast, ZMod.intCast_mod]

theorem mont_reduce_cast (x : Int) :
    ((mont_reduce x : Int) : ZMod QN) = (x : ZMod QN) * rinv := by
  unfold mont_reduce
  rw [intCast_emod_QI]
  push_cast
  norm_num [RINV, rinv]

set_option maxRecDepth 2000 in
theorem two_pow32_rinv : (4294967296 : ZMod QN) * rinv = 1 := by decide

theorem zeta_cast (k : Nat) :
    ((ZETA_TABLE_MONT k : Int) : ZMod QN) * rinv = zetaZ k := by
  unfold ZETA_TABLE_MONT zetaZ
  rw [intCast_emod_QI]
  push_cast
  rw [mul_assoc, two_pow32_rinv, mul_one]

set_option maxRecDepth 2000 in
theorem F_SCALAR_cast : ((F_SCALAR : Int) : ZMod QN) * rinv = 8347681 := by
  unfold F_SCALAR
  rw [intCast_emod_QI]
  push_cast
  decide

theorem nttStep_cast (v : Nat → Int) (op : Nat × Nat × Nat) (i : Nat) :
    ((nttStep v op i : Int) : ZMod QN) = nttStepZ (fun n => ((v n : Int) : ZMod QN)) op i := by
  simp only [nttStep, nttButterfly, nttStepZ, nttButterflyZ]
  split_ifs
  · push_cast
    rw [mont_reduce_cast]
    push_cast
    rw [← zeta_cast op.2.2]
    ring
  · push_cast
    rw [mont_reduce_cast]
    push_cast
    rw [← zeta_cast op.2.2]
    ring
  · rfl

theorem invStep_cast (v : Nat → Int) (op : Nat × Nat × Nat) (i : Nat) :
    ((invStep v op i : Int) : ZMod QN) = invStepZ (fun n => ((v n : Int) : ZMod QN)) op i := by
  simp only [invStep, invButterfly, invStepZ, invButterflyZ]
  split_ifs
  · push_cast
    ring
  · rw [mont_reduce_cast]
    push_cast
    rw [← zeta_cast op.2.2]
    ring
  · rfl

theorem foldl_nttStep_cast (ops : List (Nat × Nat × Nat)) (v : Nat → Int) :
    ∀ i, ((List.foldl nttStep v ops i : Int) : ZMod QN)
      = List.foldl nttStepZ (fun n => ((v n : Int) : ZMod QN)) ops i := by
  induction ops generalizing v with
  | nil => intro i; rfl
  | cons a l ih =>
      intro i
      rw [List.foldl_cons, List.foldl_cons, ih (nttStep v a) i]
      have hfn : (fun n => ((nttStep v a n : Int) : ZMod QN))
          = nttStepZ (fun n => ((v n : Int) : ZMod QN)) a :=
        funext fun n => nttStep_cast v a n
      rw [hfn]

theorem foldl_invStep_cast (ops : List (Nat × Nat × Nat)) (v : Nat → Int) :
    ∀ i, ((List.foldl invStep v ops i : Int) : ZMod QN)
      = List.foldl invStepZ (fun n => ((v n : Int) : ZMod QN)) ops i := by
  induction ops generalizing v with
  | nil => intro i; rfl
  | cons a l ih =>
      intro i
      rw [List.foldl_cons, List.foldl_cons, ih (invStep v a) i]
      have hfn : (fun n => ((invStep v a n : Int) : ZMod QN))
          = invStepZ (fun n => ((v n : Int) : ZMod QN)) a :=
        funext fun n => invStep_cast v a n
      rw [hfn]

/-! ### Scaling and sub-256 congruence through the inverse network -/

theorem invStepZ_smul (c : ZMod QN) (v : Nat → ZMod QN) (op : Nat × Nat × Nat) :
    invStepZ (fun n => c * v n) op = fun i => c * invStepZ v op i := by
  funext i
  simp only [invStepZ, invButterflyZ]
  split_ifs <;> ring

theorem foldl_invStepZ_smul (ops : List (Nat × Nat × Nat)) (c : ZMod QN) (v : Nat → ZMod QN) :
    List.foldl invStepZ (fun n => c * v n) ops = fun i => c * List.foldl invStepZ v ops i := by
  induction ops generalizing v with
  | nil => rfl
  | cons a l ih => rw [List.foldl_cons, List.foldl_cons, invStepZ_smul c v a, ih (invStepZ v a)]

theorem foldIlayers_smul (ls : List Nat) (c : ZMod QN) (v : Nat → ZMod QN) :
    foldIlayers ls (fun n => c * v n) = fun i => c * foldIlayers ls v i := by
  induction ls generalizing v with
  | nil => rfl
  | cons a l ih =>
      show foldIlayers l (List.foldl invStepZ (fun n => c * v n) (opsI a)) = _
      rw [foldl_invStepZ_smul, ih (List.foldl invStepZ v (opsI a))]
      rfl

theorem foldl_invStepZ_congr (ops : List (Nat × Nat × Nat)) (hr : OpsInRange ops)
    (v w : Nat → ZMod QN) (h : ∀ i, i < 256 → v i = w i) :
    ∀ i, i < 256 → List.foldl invStepZ v ops i = List.foldl invStepZ w ops i := by
  induction ops generalizing v w with
  | nil => exact h
  | cons a l ih =>
      intro i hi
      rw [List.foldl_cons, List.foldl_cons]
      refine ih (fun o ho => hr o (List.mem_cons_of_mem a ho)) _ _ ?_ i hi
      intro m hm
      have ha := hr a (List.mem_cons_self a l)
      simp only [invStepZ, invButterflyZ]
      split_ifs
      · rw [h a.1 (by omega), h (a.1 + a.2.1) (by omega)]
      · rw [h a.1 (by omega), h (a.1 + a.2.1) (by omega)]
      · exact h m hm

theorem foldIlayers_congr (ls : List Nat) (hm : ∀ l ∈ ls, l ∈ lensF)
    (v w : Nat → ZMod QN) (h : ∀ i, i < 256 → v i = w i) :
    ∀ i, i < 256 → foldIlayers ls v i = foldIlayers ls w i := by
  induction ls generalizing v w with
  | nil => exact h
  | cons a l ih =>
      intro i hi
      have ha := lensF_facts a (hm a (List.mem_cons_self a l))
      show List.foldl _ (List.foldl invStepZ v (opsI a)) l i
        = List.foldl _ (List.foldl invStepZ w (opsI a)) l i
      refine ih (fun x hx => hm x (List.mem_cons_of_mem a hx)) _ _ ?_ i hi
      exact foldl_invStepZ_congr (opsI a) (opsI_inRange a ha.2) v w h

/-! ### The twiddle pairing between matching forward and inverse levels -/

set_option maxRecDepth 20000 in
theorem brv8_pair : ∀ l ∈ lensF, ∀ b < 128 / l,
    brv8 (128 / l + b) + brv8 (256 / l - 1 - b) = 256 := by decide

set_option maxRecDepth 4000 in
theorem zeta_order : (1753 : ZMod QN) ^ 256 = -1 := by decide

theorem zetaZ_pair (l : Nat) (hl : l ∈ lensF) (b : Nat) (hb : b < 128 / l) :
    zetaZ (128 / l + b) * zetaZ (256 / l - 1 - b) = -1 := by
  unfold zetaZ
  rw [← pow_add, brv8_pair l hl b hb, zeta_order]

end Fips204

namespace Fips204

/-! ### One inverse level undoes the matching forward level (times 2) -/

theorem pair_cancel (len : Nat) (hl : len ∈ lensF) (v : Nat → ZMod QN) (i : Nat) (hi : i < 256) :
    List.foldl invStepZ (List.foldl nttStepZ v (opsF len)) (opsI len) i = 2 * v i := by
  obtain ⟨hpos, hdvd⟩ := lensF_facts len hl
  have h2len : 0 < 2 * len := by omega
  have h256 : 2 * len * (128 / len) = 256 := by
    calc 2 * len * (128 / len) = 2 * (len * (128 / len)) := by ring
      _ = 256 := by rw [hdvd]
  have hblt : i / (2 * len) < 128 / len := Nat.div_lt_of_lt_mul (by rw [h256]; exact hi)
  have hrlt : i % (2 * len) < 2 * len := Nat.mod_lt _ h2len
  have hieq : 2 * len * (i / (2 * len)) + i % (2 * len) = i := Nat.div_add_mod i (2 * len)
  set b := i / (2 * len) with hbdef
  set r := i % (2 * len) with hrdef
  rcases Nat.lt_or_ge r len with hcase | hcase
  · -- i is the upper cell of its butterfly: i = j
    have hmemF := mem_opsF len b r hblt hcase
    have hmemI := mem_opsI len b r hblt hcase
    have hij : 2 * len * b + r = i := hieq
    rw [hij] at hmemF hmemI
    rw [foldl_op_touched invStepZ invStepZ_untouched invStepZ_congr (opsI len)
      (opsI_disjoint len hpos) (i, len, 256 / len - 1 - b) hmemI
      (List.foldl nttStepZ v (opsF len)) i (Or.inl rfl)]
    simp only [invStepZ, invButterflyZ, eq_self_iff_true, if_true]
    rw [foldl_op_touched nttStepZ nttStepZ_untouched nttStepZ_congr (opsF len)
      (opsF_disjoint len hpos) (i, len, 128 / len + b) hmemF v i (Or.inl rfl)]
    rw [foldl_op_touched nttStepZ nttStepZ_untouched nttStepZ_congr (opsF len)
      (opsF_disjoint len hpos) (i, len, 128 / len + b) hmemF v (i + len) (Or.inr rfl)]
    simp only [nttStepZ, nttButterflyZ, eq_self_iff_true, if_true]
    rw [if_neg (show ¬(i + len = i) by omega)]
    ring
  · -- i is the lower cell: i = j + len with j = 2·len·b + (r - len)
    have ho : r - len < len := by omega
    have hmemF := mem_opsF len b (r - len) hblt ho
    have hmemI := mem_opsI len b (r - len) hblt ho
    set j := 2 * len * b + (r - len) with hjdef
    have hji : j + len = i := by omega
    rw [foldl_op_touched invStepZ invStepZ_untouched invStepZ_congr (opsI len)
      (opsI_disjoint len hpos) (j, len, 256 / len - 1 - b) hmemI
      (List.foldl nttStepZ v (opsF len)) i (Or.inr hji.symm)]
    simp only [invStepZ, invButterflyZ, eq_self_iff_true, if_true]
    rw [if_neg (show ¬(i = j) by omega), if_pos hji.symm]
    rw [foldl_op_touched nttStepZ nttStepZ_untouched nttStepZ_congr (opsF len)
      (opsF_disjoint len hpos) (j, len, 128 / len + b) hmemF v j (Or.inl rfl)]
    rw [foldl_op_touched nttStepZ nttStepZ_untouched nttStepZ_congr (opsF len)
      (opsF_disjoint len hpos) (j, len, 128 / len + b) hmemF v (j + len) (Or.inr rfl)]
    simp only [nttStepZ, nttButterflyZ, eq_self_iff_true, if_true]
    rw [if_neg (show ¬(j + len = j) by omega)]
    have hzp := zetaZ_pair len hl b hblt
    have expand : -zetaZ (256 / len - 1 - b) *
        ((v j + zetaZ (128 / len + b) * v (j + len)) - (v j - zetaZ (128 / len + b) * v (j + len)))
        = -2 * (zetaZ (128 / len + b) * zetaZ (256 / len - 1 - b)) * v (j + len) := by ring
    rw [expand, hzp, ← hji]
    ring

/-! ### Telescoping the full inverse network over the full forward one -/

theorem telescope : ∀ (ls : List Nat), (∀ l ∈ ls, l ∈ lensF) →
    ∀ (v : Nat → ZMod QN) (i : Nat), i < 256 →
      foldIlayers ls.reverse (foldFlayers ls v) i = 2 ^ ls.length * v i := by
  intro ls
  induction ls using List.reverseRecOn with
  | nil =>
      intro _ v i _
      simp [foldIlayers, foldFlayers]
  | append_singleton ls l ih =>
      intro hmem v i hi
      have hl : l ∈ lensF := hmem l (by simp)
      have hls : ∀ x ∈ ls, x ∈ lensF := fun x hx => hmem x (by simp [hx])
      have hF : foldFlayers (ls ++ [l]) v = List.foldl nttStepZ (foldFlayers ls v) (opsF l) := by
        simp [foldFlayers, List.foldl_append]
      have hrev : (ls ++ [l]).reverse = l :: ls.reverse := by simp
      rw [hF, hrev]
      have hcons : foldIlayers (l :: ls.reverse)
          (List.foldl nttStepZ (foldFlayers ls v) (opsF l))
          = foldIlayers ls.reverse (List.foldl invStepZ
            (List.foldl nttStepZ (foldFlayers ls v) (opsF l)) (opsI l)) := rfl
      rw [hcons]
      have hmemrev : ∀ x ∈ ls.reverse, x ∈ lensF := fun x hx =>
        hls x (List.mem_reverse.mp hx)
      have hstep := foldIlayers_congr ls.reverse hmemrev
        (List.foldl invStepZ (List.foldl nttStepZ (foldFlayers ls v) (opsF l)) (opsI l))
        (fun n => 2 * foldFlayers ls v n)
        (fun m hm => pair_cancel l hl (foldFlayers ls v) m hm) i hi
      rw [hstep, foldIlayers_smul]
      show 2 * foldIlayers ls.reverse (foldFlayers ls v) i = 2 ^ (ls ++ [l]).length * v i
      rw [ih hls v i hi]
      simp only [List.length_append, List.length_singleton, pow_succ]
      ring

end Fips204

namespace Fips204

/-! ### Claim C2: the NTT round-trip -/

theorem foldl_flatMap_fold {A : Type} (step : (Nat → A) → Nat × Nat × Nat → Nat → A)
    (ops : Nat → List (Nat × Nat × Nat)) :
    ∀ (ls : List Nat) (v : Nat → A),
      List.foldl step v (ls.flatMap ops) = ls.foldl (fun v l => List.foldl step v (ops l)) v := by
  intro ls
  induction ls with
  | nil => intro v; rfl
  | cons a l ih =>
      intro v
      rw [List.flatMap_cons, List.foldl_append, List.foldl_cons, ih]

set_option maxRecDepth 2000 in
theorem inv256 : (8347681 : ZMod QN) * 256 = 1 := by decide

/-- C2: for every polynomial of 256 signed 32-bit coefficients,
`inv_ntt (ntt p)` equals `p` componentwise after reduction by
`full_reduce32`: each output coefficient is the canonical representative
in `[0, q)` of the corresponding input coefficient modulo `q = 8380417`. -/
theorem C2_ntt_inv_ntt_roundtrip (p : Nat → Int)
    (hp : ∀ i, i < 256 → |p i| ≤ 2 ^ 31 - 1) (i : Nat) (hi : i < 256) :
    inv_ntt (ntt p) i = full_reduce32 (p i) := by
  have hrfl : inv_ntt (ntt p) i =
      if i < 256 then full_reduce32 (mont_reduce (F_SCALAR * (invOps.foldl invStep (ntt p)) i))
      else (invOps.foldl invStep (ntt p)) i := rfl
  rw [hrfl, if_pos hi]
  unfold full_reduce32
  rw [QI_eq_natCast]
  have hv : ((List.foldl invStep (ntt p) invOps i : Int) : ZMod QN)
      = 256 * ((p i : Int) : ZMod QN) := by
    rw [foldl_invStep_cast]
    have hfn : (fun n => ((ntt p n : Int) : ZMod QN))
        = List.foldl nttStepZ (fun n => ((p n : Int) : ZMod QN)) nttOps :=
      funext fun n => foldl_nttStep_cast nttOps p n
    rw [hfn]
    have hFstruct : List.foldl nttStepZ (fun n => ((p n : Int) : ZMod QN)) nttOps
        = foldFlayers lensF (fun n => ((p n : Int) : ZMod QN)) :=
      foldl_flatMap_fold nttStepZ opsF lensF _
    have hIstruct : ∀ w : Nat → ZMod QN,
        List.foldl invStepZ w invOps = foldIlayers lensF.reverse w := by
      intro w
      have h1 : List.foldl invStepZ w invOps = foldIlayers lensI w :=
        foldl_flatMap_fold invStepZ opsI lensI w
      have h2 : lensI = lensF.reverse := rfl
      rw [h1, h2]
    rw [hFstruct, hIstruct]
    have := telescope lensF (fun _ h => h) (fun n => ((p n : Int) : ZMod QN)) i hi
    rw [this]
    norm_num [lensF]
  have hcast : ((mont_reduce (F_SCALAR * (invOps.foldl invStep (ntt p)) i) : Int) : ZMod QN)
      = ((p i : Int) : ZMod QN) := by
    rw [mont_reduce_cast]
    push_cast
    rw [hv]
    have hF := F_SCALAR_cast
    linear_combination (256 * ((p i : Int) : ZMod QN)) * hF
      + ((p i : Int) : ZMod QN) * inv256
  exact (ZMod.intCast_eq_intCast_iff _ _ _).mp hcast

set_option maxRecDepth 2000 in
/-- Witness for C2 at the zero polynomial and coefficient 0. -/
theorem C2_ntt_inv_ntt_roundtrip_witness :
    (∀ i, i < 256 → |(fun _ => (0 : Int)) i| ≤ 2 ^ 31 - 1) ∧
      inv_ntt (ntt (fun _ => 0)) 0 = full_reduce32 ((fun _ => (0 : Int)) 0) :=
  ⟨by decide, C2_ntt_inv_ntt_roundtrip (fun _ => 0) (by decide) 0 (by decide)⟩

end Fips204

namespace Fips204

/-! ### Round-trip of the bit-field codec -/

theorem bitlenFuel_eq_size : ∀ f n, n < 2 ^ f → bitlenFuel f n = n.size := by
  intro f
  induction f with
  | zero =>
      intro n h
      have : n = 0 := by simpa using h
      subst this
      simp [bitlenFuel, Nat.size_zero]
  | succ f ih =>
      intro n h
      by_cases h0 : n = 0
      · subst h0
        simp [bitlenFuel, Nat.size_zero]
      · simp only [bitlenFuel, if_neg h0]
        rw [ih (n / 2) (by
          rw [Nat.div_lt_iff_lt_mul (by norm_num)]
          calc n < 2 ^ (f + 1) := h
            _ = 2 ^ f * 2 := by rw [pow_succ])]
        conv_rhs => rw [← Nat.bit_decomp n]
        rw [Nat.size_bit (by rw [Nat.bit_decomp]; exact h0)]
        rw [Nat.div2_val]

theorem bit_length_eq_size (x : Int) : bit_length x = x.toNat.size :=
  bitlenFuel_eq_size x.toNat x.toNat (Nat.lt_two_pow x.toNat)

theorem length_natToBytes : ∀ len n, (natToBytes len n).length = len := by
  intro len
  induction len with
  | zero => intro n; rfl
  | succ k ih => intro n; simp [natToBytes, ih]

theorem bytesToNat_natToBytes : ∀ len n, n < 256 ^ len →
    bytesToNat (natToBytes len n) = n := by
  intro len
  induction len with
  | zero =>
      intro n hn
      simp only [pow_zero, Nat.lt_one_iff] at hn
      simp [natToBytes, bytesToNat, hn]
  | succ k ih =>
      intro n hn
      have hdiv : n / 256 < 256 ^ k := by
        rw [Nat.div_lt_iff_lt_mul (by norm_num)]
        calc n < 256 ^ (k + 1) := hn
          _ = 256 ^ k * 256 := by rw [pow_succ]
      simp only [natToBytes, bytesToNat, ih (n / 256) hdiv]
      exact Nat.mod_add_div n 256

theorem coeffsToNat_lt : ∀ (c : List Int) (w : Nat),
    coeffsToNat w c < 2 ^ (w * c.length) := by
  intro c w
  induction c with
  | nil => simp [coeffsToNat]
  | cons x cs ih =>
      simp only [coeffsToNat, List.length_cons]
      have h1 : x.toNat % 2 ^ w < 2 ^ w := Nat.mod_lt _ (Nat.pos_pow_of_pos w (by norm_num))
      calc x.toNat % 2 ^ w + 2 ^ w * coeffsToNat w cs
          < 2 ^ w + 2 ^ w * coeffsToNat w cs := by omega
        _ = 2 ^ w * (coeffsToNat w cs + 1) := by ring
        _ ≤ 2 ^ w * 2 ^ (w * cs.length) := by
            exact Nat.mul_le_mul_left _ (by omega)
        _ = 2 ^ (w * (cs.length + 1)) := by rw [← pow_add]; ring_nf
 
theorem natToCoeffs_coeffsToNat : ∀ (c : List Int) (w : Nat),
    (∀ x ∈ c, 0 ≤ x ∧ x < 2 ^ w) →
    natToCoeffs w c.length (coeffsToNat w c) = c := by
  intro c w
  induction c with
  | nil => intro _; rfl
  | cons x cs ih =>
      intro hc
      obtain ⟨hx0, hxw⟩ := hc x (List.mem_cons_self x cs)
      have hxN : x.toNat < 2 ^ w := by
        have hcast : ((2 ^ w : Nat) : Int) = 2 ^ w := by push_cast; rfl
        have hx' : x < ((2 ^ w : Nat) : Int) := by rw [hcast]; exact hxw
        omega
      have hmod : x.toNat % 2 ^ w = x.toNat := Nat.mod_eq_of_lt hxN
      simp only [coeffsToNat, List.length_cons, natToCoeffs, hmod]
      congr 1
      · rw [Nat.add_mul_mod_self_left, hmod]
        exact Int.toNat_of_nonneg hx0
      · rw [Nat.add_mul_div_left _ _ (Nat.pos_pow_of_pos w (by norm_num)),
          Nat.div_eq_of_lt hxN, Nat.zero_add]
        exact ih fun y hy => hc y (List.mem_cons_of_mem x hy)

theorem length_simple_bit_pack (c : List Int) (b : Int) :
    (simple_bit_pack c b).length = 32 * bit_length b := by
  unfold simple_bit_pack
  exact length_natToBytes _ _

theorem simple_bit_unpack_pack (c : List Int) (b : Int) (hlen : c.length = 256)
    (hc : ∀ x ∈ c, 0 ≤ x ∧ x ≤ b) :
    simple_bit_unpack (simple_bit_pack c b) b = c := by
  unfold simple_bit_pack simple_bit_unpack
  have hbound : coeffsToNat (bit_length b) c < 256 ^ (32 * bit_length b) := by
    have h1 := coeffsToNat_lt c (bit_length b)
    have h2 : (256 : Nat) ^ (32 * bit_length b) = 2 ^ (bit_length b * c.length) := by
      rw [hlen]
      rw [show (256 : Nat) = 2 ^ 8 from rfl, ← pow_mul]
      ring_nf
    rw [h2]
    exact h1
  rw [bytesToNat_natToBytes _ _ hbound, ← hlen]
  refine natToCoeffs_coeffsToNat c (bit_length b) fun x hx => ?_
  obtain ⟨hx0, hxb⟩ := hc x hx
  refine ⟨hx0, ?_⟩
  have hb0 : 0 ≤ b := le_trans hx0 hxb
  have hbsz : b.toNat < 2 ^ (bit_length b) := by
    rw [bit_length_eq_size]
    exact Nat.lt_size_self b.toNat
  calc x ≤ b := hxb
    _ = (b.toNat : Int) := (Int.toNat_of_nonneg hb0).symm
    _ < ((2 ^ bit_length b : Nat) : Int) := by exact_mod_cast hbsz
    _ = 2 ^ bit_length b := by push_cast; rfl

theorem length_bit_pack (c : List Int) (a b : Int) :
    (bit_pack c a b).length = 32 * bit_length (a + b) := by
  unfold bit_pack
  exact length_simple_bit_pack _ _

theorem bit_unpack_pack (c : List Int) (a b : Int) (hlen : c.length = 256)
    (ha : 0 ≤ a) (hc : ∀ x ∈ c, -a ≤ x ∧ x ≤ b) :
    bit_unpack (bit_pack c a b) a b = c := by
  unfold bit_pack bit_unpack
  rw [simple_bit_unpack_pack (c.map fun x => b - x) (a + b)
    (by rw [List.length_map, hlen])
    (by
      intro y hy
      obtain ⟨x, hx, rfl⟩ := List.mem_map.mp hy
      obtain ⟨h1, h2⟩ := hc x hx
      constructor <;> linarith)]
  rw [List.map_map]
  have hid : ∀ x ∈ c, ((fun r => b - r) ∘ fun x => b - x) x = x := by
    intro x _
    simp only [Function.comp_apply]
    ring
  rw [List.map_congr_left hid, show (fun a : Int => a) = id from rfl, List.map_id]

end Fips204

namespace Fips204

/-! ### Slicing a concatenation of fixed-size chunks -/

theorem length_flatten_const {α : Type} (cs : List (List α)) (P : Nat)
    (h : ∀ x ∈ cs, x.length = P) : cs.flatten.length = cs.length * P := by
  induction cs with
  | nil => simp
  | cons c rest ih =>
      rw [List.flatten_cons, List.length_append, List.length_cons,
        h c (List.mem_cons_self c rest), ih fun x hx => h x (List.mem_cons_of_mem c hx)]
      ring

theorem decode_slices {α β : Type} (cs : List (List α)) (P : Nat) (g : List α → β) :
    ∀ (tail : List α), (∀ x ∈ cs, x.length = P) →
    (List.range cs.length).map (fun i => g (((cs.flatten ++ tail).drop (i * P)).take P))
      = cs.map g := by
  induction cs with
  | nil => intro tail _; simp
  | cons c rest ih =>
      intro tail hP
      have hc : c.length = P := hP c (List.mem_cons_self c rest)
      rw [List.length_cons, List.range_succ_eq_map, List.map_cons, List.map_map,
        List.map_cons]
      congr 1
      · rw [List.flatten_cons, List.append_assoc, Nat.zero_mul, List.drop_zero, ← hc,
          List.take_left' rfl]
      · rw [show ((fun i => g (((((c :: rest).flatten ++ tail)).drop (i * P)).take P)) ∘ Nat.succ)
            = fun i => g ((((c :: rest).flatten ++ tail).drop ((i + 1) * P)).take P) from rfl]
        have hstep : ∀ i ∈ List.range rest.length,
            g ((((c :: rest).flatten ++ tail).drop ((i + 1) * P)).take P)
              = g (((rest.flatten ++ tail).drop (i * P)).take P) := by
          intro i _
          rw [List.flatten_cons, List.append_assoc,
            show (i + 1) * P = c.length + i * P from by rw [hc]; ring,
            List.drop_append]
        rw [List.map_congr_left hstep,
          ih tail fun x hx => hP x (List.mem_cons_of_mem c hx)]

/-! ### Claim C4: public-key round-trip -/

theorem size_eq_iff (n k : Nat) (hk : 1 ≤ k) (h1 : 2 ^ (k - 1) ≤ n) (h2 : n < 2 ^ k) :
    n.size = k := by
  have hle : n.size ≤ k := Nat.size_le.mpr h2
  have hlt : k - 1 < n.size := Nat.lt_size.mpr h1
  omega

theorem blq23 : bit_length (QI - 1) = 23 := by
  have ht : (QI - 1).toNat = 8380416 := by decide
  rw [bit_length_eq_size, ht]
  exact size_eq_iff _ 23 (by norm_num) (by norm_num) (by norm_num)

/-- C4: for every 32-byte seed ρ and every vector `t1` of polynomials
with coefficients in `[0, 2^{bitlen(q−1)−d}−1]`, `pk_encode` succeeds
and `pk_decode` applied to its output returns exactly `(ρ, t1)`. -/
theorem C4_pk_roundtrip (rho : List Nat) (t1 : List (List Int)) (h32 : rho.length = 32)
    (hlen : ∀ t ∈ t1, t.length = 256)
    (hr : ∀ t ∈ t1, ∀ x ∈ t, 0 ≤ x ∧ x ≤ 2 ^ (bit_length (QI - 1) - D) - 1) :
    ∃ pk, pk_encode rho t1 = .ok pk ∧ pk_decode t1.length pk = .ok (rho, t1) := by
  have hchk : (t1.all fun t => is_in_range t 0 (2 ^ (bit_length (QI - 1) - D) - 1)) = true := by
    rw [List.all_eq_true]
    intro t ht
    unfold is_in_range
    rw [List.all_eq_true]
    intro x hx
    obtain ⟨h1, h2⟩ := hr t ht x hx
    simp only [neg_zero, Bool.and_eq_true, decide_eq_true_eq]
    exact ⟨h1, h2⟩
  have henc : pk_encode rho t1 = .ok (rho ++
      (t1.map fun t => simple_bit_pack t (2 ^ (bit_length (QI - 1) - D) - 1)).flatten) := by
    unfold pk_encode
    rw [if_pos hchk]
  refine ⟨_, henc, ?_⟩
  have hb : bit_length ((2 : Int) ^ (bit_length (QI - 1) - D) - 1) = bit_length (QI - 1) - D := by
    rw [blq23]
    have ht : ((2 : Int) ^ (23 - D) - 1).toNat = 1023 := by decide
    rw [bit_length_eq_size, ht]
    have : 23 - D = 10 := by norm_num [D]
    rw [this]
    exact size_eq_iff _ 10 (by norm_num) (by norm_num) (by norm_num)
  have hchunk : ∀ x ∈ t1.map fun t => simple_bit_pack t (2 ^ (bit_length (QI - 1) - D) - 1),
      x.length = 32 * (bit_length (QI - 1) - D) := by
    intro x hx
    obtain ⟨t, _, rfl⟩ := List.mem_map.mp hx
    rw [length_simple_bit_pack, hb]
  simp only [pk_decode]
  have hrho : (rho ++
      (t1.map fun t => simple_bit_pack t (2 ^ (bit_length (QI - 1) - D) - 1)).flatten).take 32
      = rho := List.take_left' h32
  have hslice : (List.range t1.length).map (fun i =>
      simple_bit_unpack (((rho ++
        (t1.map fun t => simple_bit_pack t (2 ^ (bit_length (QI - 1) - D) - 1)).flatten).drop
          (32 + 32 * i * (bit_length (QI - 1) - D))).take (32 * (bit_length (QI - 1) - D)))
        (2 ^ (bit_length (QI - 1) - D) - 1)) = t1 := by
    have hdrop : ∀ i, (rho ++
        (t1.map fun t => simple_bit_pack t (2 ^ (bit_length (QI - 1) - D) - 1)).flatten).drop
          (32 + 32 * i * (bit_length (QI - 1) - D))
        = ((t1.map fun t => simple_bit_pack t (2 ^ (bit_length (QI - 1) - D) - 1)).flatten
            ++ []).drop (i * (32 * (bit_length (QI - 1) - D))) := by
      intro i
      rw [List.append_nil,
        show 32 + 32 * i * (bit_length (QI - 1) - D)
          = rho.length + i * (32 * (bit_length (QI - 1) - D)) from by rw [h32]; ring,
        List.drop_append]
    have := decode_slices (t1.map fun t => simple_bit_pack t (2 ^ (bit_length (QI - 1) - D) - 1))
      (32 * (bit_length (QI - 1) - D))
      (fun bs => simple_bit_unpack bs (2 ^ (bit_length (QI - 1) - D) - 1)) [] hchunk
    rw [List.length_map] at this
    calc (List.range t1.length).map _
        = (t1.map fun t => simple_bit_pack t (2 ^ (bit_length (QI - 1) - D) - 1)).map
            (fun bs => simple_bit_unpack bs (2 ^ (bit_length (QI - 1) - D) - 1)) := by
          rw [← this]
          exact List.map_congr_left fun i _ => by rw [hdrop i]
      _ = t1.map (fun t => simple_bit_unpack
            (simple_bit_pack t (2 ^ (bit_length (QI - 1) - D) - 1))
            (2 ^ (bit_length (QI - 1) - D) - 1)) := by rw [List.map_map]; rfl
      _ = t1 := by
          rw [show t1 = t1.map id from (List.map_id t1).symm]
          simp only [List.map_map]
          refine List.map_congr_left fun t ht => ?_
          simp only [Function.comp_apply, id]
          exact simple_bit_unpack_pack t _ (hlen t ht) (hr t ht)
  rw [hrho, hslice, if_pos hchk]

end Fips204

namespace Fips204

/-! ### Claim C5: secret-key round-trip -/

theorem decode_slices_pre {β : Type} (pre : List Nat) (cs : List (List Nat)) (tail : List Nat)
    (P : Nat) (g : List Nat → β) (hP : ∀ x ∈ cs, x.length = P) (f : Nat → Nat)
    (hf : ∀ i, f i = pre.length + i * P) :
    (List.range cs.length).map (fun i => g (((pre ++ (cs.flatten ++ tail)).drop (f i)).take P))
      = cs.map g := by
  have hstep : ∀ i ∈ List.range cs.length,
      g (((pre ++ (cs.flatten ++ tail)).drop (f i)).take P)
        = g (((cs.flatten ++ tail).drop (i * P)).take P) := by
    intro i _
    rw [hf i, List.drop_append]
  rw [List.map_congr_left hstep, decode_slices cs P g tail hP]

theorem bld13 : bit_length ((2 : Int) ^ (D - 1) - 1 + 2 ^ (D - 1)) = D := by
  have ht : ((2 : Int) ^ (D - 1) - 1 + 2 ^ (D - 1)).toNat = 8191 := by decide
  rw [bit_length_eq_size, ht]
  have : D = 13 := rfl
  rw [this]
  exact size_eq_iff _ 13 (by norm_num) (by norm_num) (by norm_num)

/-- C5: for every 32-byte ρ, 32-byte K, 64-byte tr, and vectors s₁, s₂
with coefficients in [−η, η] and t₀ with coefficients in
[−2^{d−1}+1, 2^{d−1}], `sk_encode` succeeds and `sk_decode` applied to
its output returns exactly the same six components. -/
theorem C5_sk_roundtrip (eta : Int) (he : 1 ≤ eta) (rho k tr : List Nat)
    (s1 s2 t0 : List (List Int))
    (hrho : rho.length = 32) (hk : k.length = 32) (htr : tr.length = 64)
    (hs1l : ∀ p ∈ s1, p.length = 256) (hs1r : ∀ p ∈ s1, ∀ x ∈ p, -eta ≤ x ∧ x ≤ eta)
    (hs2l : ∀ p ∈ s2, p.length = 256) (hs2r : ∀ p ∈ s2, ∀ x ∈ p, -eta ≤ x ∧ x ≤ eta)
    (ht0l : ∀ p ∈ t0, p.length = 256)
    (ht0r : ∀ p ∈ t0, ∀ x ∈ p, -(2 ^ (D - 1) - 1) ≤ x ∧ x ≤ 2 ^ (D - 1))
    (hKK : t0.length = s2.length) :
    ∃ sk, sk_encode eta rho k tr s1 s2 t0 = .ok sk ∧
      sk_decode s2.length s1.length eta sk = .ok (rho, k, tr, s1, s2, t0) := by
  have hee : eta + eta = 2 * eta := by ring
  have heta0 : (0 : Int) ≤ eta := by linarith
  have hchk1 : (s1.all fun x => is_in_range x eta eta) = true := by
    rw [List.all_eq_true]
    intro p hp
    unfold is_in_range
    rw [List.all_eq_true]
    intro x hx
    obtain ⟨h1, h2⟩ := hs1r p hp x hx
    simp only [Bool.and_eq_true, decide_eq_true_eq]
    exact ⟨h1, h2⟩
  have hchk2 : (s2.all fun x => is_in_range x eta eta) = true := by
    rw [List.all_eq_true]
    intro p hp
    unfold is_in_range
    rw [List.all_eq_true]
    intro x hx
    obtain ⟨h1, h2⟩ := hs2r p hp x hx
    simp only [Bool.and_eq_true, decide_eq_true_eq]
    exact ⟨h1, h2⟩
  have hchk3 : (t0.all fun x => is_in_range x (2 ^ (D - 1) - 1) (2 ^ (D - 1))) = true := by
    rw [List.all_eq_true]
    intro p hp
    unfold is_in_range
    rw [List.all_eq_true]
    intro x hx
    obtain ⟨h1, h2⟩ := ht0r p hp x hx
    simp only [Bool.and_eq_true, decide_eq_true_eq]
    exact ⟨h1, h2⟩
  have henc : sk_encode eta rho k tr s1 s2 t0 = .ok (rho ++ k ++ tr
      ++ (s1.map fun x => bit_pack x eta eta).flatten
      ++ (s2.map fun x => bit_pack x eta eta).flatten
      ++ (t0.map fun x => bit_pack x (2 ^ (D - 1) - 1) (2 ^ (D - 1))).flatten) := by
    unfold sk_encode
    rw [if_pos hchk1, if_pos hchk2, if_pos hchk3]
  refine ⟨_, henc, ?_⟩
  set F1 := (s1.map fun x => bit_pack x eta eta).flatten with hF1
  set F2 := (s2.map fun x => bit_pack x eta eta).flatten with hF2
  set F3 := (t0.map fun x => bit_pack x (2 ^ (D - 1) - 1) (2 ^ (D - 1))).flatten with hF3
  set P := 32 * bit_length (2 * eta) with hP
  have hc1 : ∀ x ∈ s1.map fun x => bit_pack x eta eta, x.length = P := by
    intro x hx
    obtain ⟨p, _, rfl⟩ := List.mem_map.mp hx
    rw [length_bit_pack, hee]
  have hc2 : ∀ x ∈ s2.map fun x => bit_pack x eta eta, x.length = P := by
    intro x hx
    obtain ⟨p, _, rfl⟩ := List.mem_map.mp hx
    rw [length_bit_pack, hee]
  have hc3 : ∀ x ∈ t0.map fun x => bit_pack x (2 ^ (D - 1) - 1) (2 ^ (D - 1)),
      x.length = 32 * D := by
    intro x hx
    obtain ⟨p, _, rfl⟩ := List.mem_map.mp hx
    rw [length_bit_pack, bld13]
  have hlF1 : F1.length = s1.length * P := by
    rw [hF1, length_flatten_const _ P hc1, List.length_map]
  have hlF2 : F2.length = s2.length * P := by
    rw [hF2, length_flatten_const _ P hc2, List.length_map]
  simp only [sk_decode]
  have hsk : rho ++ k ++ tr ++ F1 ++ F2 ++ F3 = rho ++ (k ++ (tr ++ (F1 ++ (F2 ++ F3)))) := by
    simp [List.append_assoc]
  -- rho, K, tr extraction
  have hget_rho : (rho ++ k ++ tr ++ F1 ++ F2 ++ F3).take 32 = rho := by
    rw [hsk]; exact List.take_left' hrho
  have hget_k : ((rho ++ k ++ tr ++ F1 ++ F2 ++ F3).drop 32).take 32 = k := by
    rw [hsk, List.drop_left' hrho]
    exact List.take_left' hk
  have hget_tr : ((rho ++ k ++ tr ++ F1 ++ F2 ++ F3).drop 64).take 64 = tr := by
    have h2 : rho ++ k ++ tr ++ F1 ++ F2 ++ F3 = (rho ++ k) ++ (tr ++ (F1 ++ (F2 ++ F3))) := by
      simp [List.append_assoc]
    rw [h2, List.drop_left' (by rw [List.length_append, hrho, hk]),
      List.take_left' htr]
  -- s1 slices
  have hpre1 : rho ++ k ++ tr ++ F1 ++ F2 ++ F3 = (rho ++ k ++ tr) ++ (F1 ++ (F2 ++ F3)) := by
    simp [List.append_assoc]
  have hlen128 : (rho ++ k ++ tr).length = 128 := by
    simp [List.length_append, hrho, hk, htr]
  have hs1slice : (List.range s1.length).map (fun i =>
      bit_unpack (((rho ++ k ++ tr ++ F1 ++ F2 ++ F3).drop (128 + i * P)).take P) eta eta)
      = s1.map fun p => bit_unpack (bit_pack p eta eta) eta eta := by
    have hgen := decode_slices_pre (rho ++ k ++ tr) (s1.map fun x => bit_pack x eta eta)
      (F2 ++ F3) P (fun bs => bit_unpack bs eta eta) hc1
      (fun i => 128 + i * P) (fun i => by rw [hlen128])
    rw [List.length_map] at hgen
    calc (List.range s1.length).map (fun i =>
        bit_unpack (((rho ++ k ++ tr ++ F1 ++ F2 ++ F3).drop (128 + i * P)).take P) eta eta)
        = (s1.map fun x => bit_pack x eta eta).map (fun bs => bit_unpack bs eta eta) := by
          rw [← hgen]
          exact List.map_congr_left fun i _ => by rw [hpre1, hF1]
      _ = s1.map fun p => bit_unpack (bit_pack p eta eta) eta eta := by
          rw [List.map_map]
          rfl
  -- s2 slices
  have hpre2 : rho ++ k ++ tr ++ F1 ++ F2 ++ F3
      = ((rho ++ k ++ tr) ++ F1) ++ (F2 ++ F3) := by
    simp [List.append_assoc]
  have hlen2 : ((rho ++ k ++ tr) ++ F1).length = 128 + s1.length * P := by
    rw [List.length_append, hlen128, hlF1]
  have hs2slice : (List.range s2.length).map (fun i =>
      bit_unpack (((rho ++ k ++ tr ++ F1 ++ F2 ++ F3).drop
        (128 + s1.length * P + i * P)).take P) eta eta)
      = s2.map fun p => bit_unpack (bit_pack p eta eta) eta eta := by
    have hgen := decode_slices_pre ((rho ++ k ++ tr) ++ F1) (s2.map fun x => bit_pack x eta eta)
      F3 P (fun bs => bit_unpack bs eta eta) hc2
      (fun i => 128 + s1.length * P + i * P) (fun i => by rw [hlen2])
    rw [List.length_map] at hgen
    calc (List.range s2.length).map (fun i =>
        bit_unpack (((rho ++ k ++ tr ++ F1 ++ F2 ++ F3).drop
          (128 + s1.length * P + i * P)).take P) eta eta)
        = (s2.map fun x => bit_pack x eta eta).map (fun bs => bit_unpack bs eta eta) := by
          rw [← hgen]
          exact List.map_congr_left fun i _ => by rw [hpre2, hF2]
      _ = s2.map fun p => bit_unpack (bit_pack p eta eta) eta eta := by
          rw [List.map_map]
          rfl
  -- t0 slices
  have hpre3 : rho ++ k ++ tr ++ F1 ++ F2 ++ F3
      = (((rho ++ k ++ tr) ++ F1) ++ F2) ++ (F3 ++ []) := by
    simp [List.append_assoc]
  have hlen3 : (((rho ++ k ++ tr) ++ F1) ++ F2).length
      = 128 + s1.length * P + s2.length * P := by
    rw [List.length_append, hlen2, hlF2]
  have ht0slice : (List.range s2.length).map (fun i =>
      bit_unpack (((rho ++ k ++ tr ++ F1 ++ F2 ++ F3).drop
        (128 + s1.length * P + s2.length * P + i * (32 * D))).take (32 * D))
        (2 ^ (D - 1) - 1) (2 ^ (D - 1)))
      = t0.map fun p => bit_unpack (bit_pack p (2 ^ (D - 1) - 1) (2 ^ (D - 1)))
          (2 ^ (D - 1) - 1) (2 ^ (D - 1)) := by
    have hgen := decode_slices_pre (((rho ++ k ++ tr) ++ F1) ++ F2)
      (t0.map fun x => bit_pack x (2 ^ (D - 1) - 1) (2 ^ (D - 1)))
      [] (32 * D) (fun bs => bit_unpack bs (2 ^ (D - 1) - 1) (2 ^ (D - 1))) hc3
      (fun i => 128 + s1.length * P + s2.length * P + i * (32 * D)) (fun i => by rw [hlen3])
    rw [List.length_map, hKK] at hgen
    calc (List.range s2.length).map (fun i =>
        bit_unpack (((rho ++ k ++ tr ++ F1 ++ F2 ++ F3).drop
          (128 + s1.length * P + s2.length * P + i * (32 * D))).take (32 * D))
          (2 ^ (D - 1) - 1) (2 ^ (D - 1)))
        = (t0.map fun x => bit_pack x (2 ^ (D - 1) - 1) (2 ^ (D - 1))).map
            (fun bs => bit_unpack bs (2 ^ (D - 1) - 1) (2 ^ (D - 1))) := by
          rw [← hgen]
          exact List.map_congr_left fun i _ => by rw [hpre3, hF3]
      _ = t0.map fun p => bit_unpack (bit_pack p (2 ^ (D - 1) - 1) (2 ^ (D - 1)))
            (2 ^ (D - 1) - 1) (2 ^ (D - 1)) := by
          rw [List.map_map]
          rfl
  -- per-polynomial round-trips
  have hrt1 : (s1.map fun p => bit_unpack (bit_pack p eta eta) eta eta) = s1 := by
    rw [show s1 = s1.map id from (List.map_id s1).symm]
    simp only [List.map_map]
    refine List.map_congr_left fun p hp => ?_
    simp only [Function.comp_apply, id]
    exact bit_unpack_pack p eta eta (hs1l p hp) heta0 (hs1r p hp)
  have hrt2 : (s2.map fun p => bit_unpack (bit_pack p eta eta) eta eta) = s2 := by
    rw [show s2 = s2.map id from (List.map_id s2).symm]
    simp only [List.map_map]
    refine List.map_congr_left fun p hp => ?_
    simp only [Function.comp_apply, id]
    exact bit_unpack_pack p eta eta (hs2l p hp) heta0 (hs2r p hp)
  have hrt3 : (t0.map fun p => bit_unpack (bit_pack p (2 ^ (D - 1) - 1) (2 ^ (D - 1)))
      (2 ^ (D - 1) - 1) (2 ^ (D - 1))) = t0 := by
    rw [show t0 = t0.map id from (List.map_id t0).symm]
    simp only [List.map_map]
    refine List.map_congr_left fun p hp => ?_
    simp only [Function.comp_apply, id]
    refine bit_unpack_pack p _ _ (ht0l p hp) (by norm_num [D]) (ht0r p hp)
  rw [hget_rho, hget_k, hget_tr, hs1slice, hrt1, hs2slice, hrt2, ht0slice, hrt3,
    hchk1, hchk2, hchk3]
  rfl

end Fips204

namespace Fips204

/-! ### Claim C8: decoded z coefficients are always in range -/

theorem natToCoeffs_mem : ∀ (k n : Nat) (w : Nat) (x : Int),
    x ∈ natToCoeffs w k n → 0 ≤ x ∧ x < 2 ^ w := by
  intro k
  induction k with
  | zero => intro n w x hx; cases hx
  | succ m ih =>
      intro n w x hx
      rcases List.mem_cons.mp hx with rfl | hx'
      · constructor
        · positivity
        · have hmod : n % 2 ^ w < 2 ^ w := Nat.mod_lt _ (Nat.pos_pow_of_pos w (by norm_num))
          have hcast : ((2 ^ w : Nat) : Int) = 2 ^ w := by push_cast; rfl
          calc ((n % 2 ^ w : Nat) : Int) < ((2 ^ w : Nat) : Int) := by exact_mod_cast hmod
            _ = 2 ^ w := hcast
      · exact ih (n / 2 ^ w) w x hx'

theorem size_two_pow_sub_one (g : Nat) : (2 ^ (g + 1) - 1 : Nat).size = g + 1 := by
  refine size_eq_iff _ (g + 1) (by omega) ?_ ?_
  · have h1 : 2 ^ g ≤ 2 ^ (g + 1) - 1 := by
      have : 2 ^ (g + 1) = 2 ^ g * 2 := by rw [pow_succ]
      have hp : 1 ≤ 2 ^ g := Nat.one_le_two_pow
      omega
    simpa using h1
  · have hp : 1 ≤ 2 ^ (g + 1) := Nat.one_le_two_pow
    omega

theorem bit_length_two_gamma (g : Nat) :
    bit_length ((2 ^ g : Int) - 1 + 2 ^ g) = g + 1 := by
  have harg : ((2 ^ g : Int) - 1 + 2 ^ g).toNat = 2 ^ (g + 1) - 1 := by
    have hcast : ((2 ^ (g + 1) : Nat) : Int) = (2 ^ g : Int) + 2 ^ g := by
      push_cast
      ring
    have hp : (1 : Nat) ≤ 2 ^ (g + 1) := Nat.one_le_two_pow
    omega
  rw [bit_length_eq_size, harg, size_two_pow_sub_one]

/-- C8: every signature that `sig_decode` accepts has all z coefficients
inside `[−(γ₁−1), γ₁]` (γ₁ is a power of two, so the recovered raw
values always map into this window; in particular a decoded z
coefficient can never lie outside it). -/
theorem C8_sig_decode_z_range (gamma1 : Int) (g : Nat) (hg : gamma1 = 2 ^ g)
    (omega K L lambda_div4 : Nat) (sigma : List Nat)
    (c : List Nat) (z : List (List Int)) (h : Option (List (List Int)))
    (hdec : sig_decode gamma1 omega K L lambda_div4 sigma = .ok (c, z, h)) :
    ∀ p ∈ z, ∀ x ∈ p, -(gamma1 - 1) ≤ x ∧ x ≤ gamma1 := by
  simp only [sig_decode] at hdec
  cases hhu : hint_bit_unpack omega K
      (sigma.drop (lambda_div4 + L * (32 * (bit_length (gamma1 - 1) + 1)))) with
  | error e =>
      rw [hhu] at hdec
      cases hdec
  | ok hh =>
      rw [hhu] at hdec
      simp only [Except.ok.injEq, Prod.mk.injEq] at hdec
      obtain ⟨-, hz, -⟩ := hdec
      subst hz
      intro p hp x hx
      obtain ⟨i, -, rfl⟩ := List.mem_map.mp hp
      unfold bit_unpack simple_bit_unpack at hx
      obtain ⟨r, hr, rfl⟩ := List.mem_map.mp hx
      obtain ⟨hr0, hrlt⟩ := natToCoeffs_mem 256 _ _ r hr
      have hble : bit_length (gamma1 - 1 + gamma1) = g + 1 := by
        rw [hg]
        exact bit_length_two_gamma g
      rw [hble] at hrlt
      have hpow : (2 : Int) ^ (g + 1) = 2 ^ g + 2 ^ g := by ring
      constructor
      · rw [hg]
        omega
      · rw [hg]
        omega

end Fips204

namespace Fips204

/-! ### Hint packing round-trip -/

theorem strictIncrB_of_pairwise : ∀ (l : List Nat), List.Pairwise (· < ·) l →
    strictIncrB l = true := by
  intro l
  induction l with
  | nil => intro _; rfl
  | cons a tail ih =>
      intro hp
      cases tail with
      | nil => rfl
      | cons b rest =>
          have hab : a < b := (List.pairwise_cons.mp hp).1 b (List.mem_cons_self b rest)
          have htail := (List.pairwise_cons.mp hp).2
          simp only [strictIncrB, Bool.and_eq_true, decide_eq_true_eq]
          exact ⟨hab, ih htail⟩

theorem positionsOf_sorted (p : List Int) : List.Pairwise (· < ·) (positionsOf p) :=
  (List.pairwise_lt_range 256).filter _

theorem positionsOf_strict (p : List Int) : strictIncrB (positionsOf p) = true :=
  strictIncrB_of_pairwise _ (positionsOf_sorted p)

set_option maxRecDepth 20000 in
theorem hintUnpackPoly_positionsOf (p : List Int) (hlen : p.length = 256)
    (h01 : ∀ x ∈ p, x = 0 ∨ x = 1) : hintUnpackPoly (positionsOf p) = p := by
  refine List.ext_getElem (by simp [hintUnpackPoly, hlen]) ?_
  intro n h1 h2
  have hn : n < 256 := by simpa [hintUnpackPoly] using h1
  have hmem : n ∈ positionsOf p ↔ ¬ (p[n] = 0) := by
    unfold positionsOf
    rw [List.mem_filter, List.getD_eq_getElem p 0 (by omega)]
    simp only [List.mem_range, bne_iff_ne, ne_eq]
    constructor
    · exact fun hx => hx.2
    · exact fun hx => ⟨hn, hx⟩
  have hval : (hintUnpackPoly (positionsOf p))[n] = if n ∈ positionsOf p then 1 else 0 := by
    unfold hintUnpackPoly
    rw [List.getElem_map]
    simp only [List.getElem_range]
  rw [hval]
  rcases h01 p[n] (p.getElem_mem h2) with hz | ho
  · rw [if_neg (by rw [hmem]; exact fun hc => hc hz), hz]
  · rw [if_pos (by rw [hmem, ho]; norm_num), ho]

theorem length_cumCounts : ∀ l : List Nat, (cumCounts l).length = l.length := by
  intro l
  induction l with
  | nil => rfl
  | cons n ns ih => simp [cumCounts, ih]

theorem mem_range_drop {n m j : Nat} (h : j ∈ (List.range n).drop m) : m ≤ j ∧ j < n := by
  obtain ⟨i, hi, hget⟩ := List.mem_iff_getElem.mp h
  have hlt : m + i < n := by
    have := hi
    simp only [List.length_drop, List.length_range] at this
    omega
  rw [List.getElem_drop, List.getElem_range] at hget
  omega

theorem range_drop_all_zero (y : List Nat) (omega idx : Nat)
    (h : ∀ j, idx ≤ j → j < omega → y.getD j 0 = 0) :
    (((List.range omega).drop idx).all fun j => y.getD j 0 == 0) = true := by
  rw [List.all_eq_true]
  intro j hj
  obtain ⟨h1, h2⟩ := mem_range_drop hj
  simp only [beq_iff_eq]
  exact h j h1 h2

theorem go_pack (y : List Nat) (omega : Nat) :
    ∀ (hs : List (List Int)) (δ : Nat),
    (∀ p ∈ hs, p.length = 256 ∧ ∀ x ∈ p, x = 0 ∨ x = 1) →
    δ + ((hs.map positionsOf).flatten).length ≤ omega →
    (y.drop δ).take ((hs.map positionsOf).flatten).length = (hs.map positionsOf).flatten →
    (∀ j, δ + ((hs.map positionsOf).flatten).length ≤ j → j < omega → y.getD j 0 = 0) →
    hint_bit_unpack_go y omega
      ((cumCounts (hs.map fun p => (positionsOf p).length)).map (δ + ·)) δ = .ok hs := by
  intro hs
  induction hs with
  | nil =>
      intro δ _ _ _ hpad
      simp only [List.map_nil, cumCounts, hint_bit_unpack_go]
      rw [if_pos (range_drop_all_zero y omega δ (by simpa using hpad))]
  | cons p rest ih =>
      intro δ hprops hle hagree hpad
      have hp := hprops p (List.mem_cons_self p rest)
      set n0 := (positionsOf p).length with hn0
      set FR := ((rest.map positionsOf).flatten) with hFR
      have hflat : ((p :: rest).map positionsOf).flatten = positionsOf p ++ FR := by
        simp [hFR]
      have hlenflat : (((p :: rest).map positionsOf).flatten).length = n0 + FR.length := by
        rw [hflat, List.length_append]
      rw [hlenflat] at hle hagree hpad
      have hcum : cumCounts ((p :: rest).map fun q => (positionsOf q).length)
          = n0 :: (cumCounts (rest.map fun q => (positionsOf q).length)).map (n0 + ·) := by
        simp [cumCounts]
      rw [hcum, List.map_cons, List.map_map]
      have hcomp : ((δ + ·) ∘ (n0 + ·)) = ((δ + n0) + ·) := by
        funext x
        simp only [Function.comp_apply]
        omega
      rw [hcomp]
      simp only [hint_bit_unpack_go]
      have hcond : ¬ ((δ + n0 < δ || omega < δ + n0) = true) := by
        simp only [Bool.or_eq_true, decide_eq_true_eq]
        push_neg
        omega
      rw [if_neg hcond]
      have hseg : (y.take (δ + n0)).drop δ = positionsOf p := by
        rw [List.drop_take]
        have h1 : δ + n0 - δ = n0 := by omega
        rw [h1]
        have h2 : (y.drop δ).take n0 = (((y.drop δ).take (n0 + FR.length))).take n0 := by
          rw [List.take_take]
          congr 1
          omega
        rw [h2, hagree, hflat, hn0, List.take_left]
      rw [hseg, if_pos (positionsOf_strict p)]
      have hagree2 : (y.drop (δ + n0)).take FR.length = FR := by
        have h3 : ((y.drop δ).take (n0 + FR.length)).drop n0
            = ((y.drop δ).drop n0).take FR.length := by
          rw [List.drop_take]
          congr 1
          omega
        calc (y.drop (δ + n0)).take FR.length
            = ((y.drop δ).drop n0).take FR.length := by rw [List.drop_drop]
          _ = ((y.drop δ).take (n0 + FR.length)).drop n0 := h3.symm
          _ = (positionsOf p ++ FR).drop n0 := by rw [hagree, hflat]
          _ = FR := List.drop_left' hn0.symm
      have hrec := ih (δ + n0) (fun q hq => hprops q (List.mem_cons_of_mem p hq))
        (by omega) hagree2
        (fun j hj1 hj2 => hpad j (by omega) hj2)
      rw [hrec]
      rw [hintUnpackPoly_positionsOf p hp.1 hp.2]

end Fips204

namespace Fips204

/-! ### Claim C3: signature round-trip -/

theorem hint_unpack_pack (omega : Nat) (h : List (List Int))
    (hprops : ∀ p ∈ h, p.length = 256 ∧ ∀ x ∈ p, x = 0 ∨ x = 1)
    (hw : ((h.map positionsOf).flatten).length ≤ omega) :
    hint_bit_pack omega h = .ok
      (((h.map positionsOf).flatten
          ++ List.replicate (omega - ((h.map positionsOf).flatten).length) 0)
        ++ cumCounts (h.map fun p => (positionsOf p).length)) ∧
    hint_bit_unpack omega h.length
      (((h.map positionsOf).flatten
          ++ List.replicate (omega - ((h.map positionsOf).flatten).length) 0)
        ++ cumCounts (h.map fun p => (positionsOf p).length)) = .ok h := by
  set I := (h.map positionsOf).flatten with hI
  set R := List.replicate (omega - I.length) 0 with hR
  set B := cumCounts (h.map fun p => (positionsOf p).length) with hB
  constructor
  · unfold hint_bit_pack
    rw [if_pos hw]
  · unfold hint_bit_unpack
    have hIRlen : (I ++ R).length = omega := by
      rw [List.length_append, hR, List.length_replicate]
      omega
    have hBlen : B.length = h.length := by
      rw [hB, length_cumCounts, List.length_map]
    have hdropB : ((I ++ R) ++ B).drop omega = B := List.drop_left' hIRlen
    rw [hdropB, ← hBlen, List.take_length]
    have hagree : (((I ++ R) ++ B).drop 0).take I.length = I := by
      rw [List.drop_zero, List.append_assoc, List.take_left]
    have hpad : ∀ j, 0 + I.length ≤ j → j < omega → ((I ++ R) ++ B).getD j 0 = 0 := by
      intro j hj1 hj2
      rw [List.getD_append _ _ _ _ (by rw [hIRlen]; exact hj2)]
      rw [List.getD_append_right _ _ _ _ (by omega)]
      have hbound : j - I.length < omega - I.length := by omega
      rw [List.getD_eq_getElem _ _ (by rw [hR, List.length_replicate]; exact hbound)]
      exact List.getElem_replicate 0 _
    have hgo := go_pack ((I ++ R) ++ B) omega h 0 hprops
      (by have hrfl : ((h.map positionsOf).flatten).length = I.length := rfl; omega) hagree hpad
    have hmap0 : (cumCounts (h.map fun p => (positionsOf p).length)).map (0 + ·) = B := by
      rw [hB]
      calc (cumCounts (h.map fun p => (positionsOf p).length)).map (0 + ·)
          = (cumCounts (h.map fun p => (positionsOf p).length)).map id :=
            List.map_congr_left fun x _ => by simp
        _ = _ := List.map_id _
    rw [hmap0] at hgo
    exact hgo

theorem bit_length_succ_double (g1 : Int) (h : 1 ≤ g1) :
    bit_length (g1 - 1 + g1) = bit_length (g1 - 1) + 1 := by
  have harg : (g1 - 1 + g1).toNat = 2 * (g1 - 1).toNat + 1 := by omega
  rw [bit_length_eq_size, bit_length_eq_size, harg]
  have hb : (2 * (g1 - 1).toNat + 1) = Nat.bit true ((g1 - 1).toNat) := by
    simp [Nat.bit]
  rw [hb, Nat.size_bit (show Nat.bit true ((g1 - 1).toNat) ≠ 0 by simp [Nat.bit])]

/-- C3: for every c̃, every z with coefficients in `[−(γ₁−1), γ₁]`, and
every `{0,1}` hint vector with at most ω nonzero coefficients in total,
`sig_encode` succeeds and `sig_decode` applied to its output returns
exactly `(c̃, z, some h)`. -/
theorem C3_sig_roundtrip (gamma1 : Int) (hg1 : 1 ≤ gamma1) (omega lambda_div4 : Nat)
    (c_tilde : List Nat) (z h : List (List Int))
    (hct : c_tilde.length = lambda_div4)
    (hzl : ∀ p ∈ z, p.length = 256)
    (hzr : ∀ p ∈ z, ∀ x ∈ p, -(gamma1 - 1) ≤ x ∧ x ≤ gamma1)
    (hhp : ∀ p ∈ h, p.length = 256 ∧ ∀ x ∈ p, x = 0 ∨ x = 1)
    (hw : ((h.map positionsOf).flatten).length ≤ omega) :
    ∃ sigma, sig_encode gamma1 omega c_tilde z h = .ok sigma ∧
      sig_decode gamma1 omega h.length z.length lambda_div4 sigma
        = .ok (c_tilde, z, some h) := by
  obtain ⟨hpack, hunpack⟩ := hint_unpack_pack omega h hhp hw
  set HB := ((h.map positionsOf).flatten
      ++ List.replicate (omega - ((h.map positionsOf).flatten).length) 0)
    ++ cumCounts (h.map fun p => (positionsOf p).length) with hHB
  have hchkz : (z.all fun x => is_in_range x (gamma1 - 1) gamma1) = true := by
    rw [List.all_eq_true]
    intro p hp
    unfold is_in_range
    rw [List.all_eq_true]
    intro x hx
    obtain ⟨h1, h2⟩ := hzr p hp x hx
    simp only [Bool.and_eq_true, decide_eq_true_eq]
    exact ⟨h1, h2⟩
  have hchkh : (h.all fun x => is_in_range x 0 1) = true := by
    rw [List.all_eq_true]
    intro p hp
    unfold is_in_range
    rw [List.all_eq_true]
    intro x hx
    rcases (hhp p hp).2 x hx with rfl | rfl <;> norm_num
  have henc : sig_encode gamma1 omega c_tilde z h = .ok (c_tilde
      ++ (z.map fun x => bit_pack x (gamma1 - 1) gamma1).flatten ++ HB) := by
    unfold sig_encode
    rw [if_pos hchkz, if_pos hchkh, hpack]
  refine ⟨_, henc, ?_⟩
  set ZF := (z.map fun x => bit_pack x (gamma1 - 1) gamma1).flatten with hZF
  set P := 32 * (bit_length (gamma1 - 1) + 1) with hP
  have hble : bit_length (gamma1 - 1 + gamma1) = bit_length (gamma1 - 1) + 1 :=
    bit_length_succ_double gamma1 hg1
  have hcz : ∀ x ∈ z.map fun x => bit_pack x (gamma1 - 1) gamma1, x.length = P := by
    intro x hx
    obtain ⟨q, _, rfl⟩ := List.mem_map.mp hx
    rw [length_bit_pack, hble]
  have hZFlen : ZF.length = z.length * P := by
    rw [hZF, length_flatten_const _ P hcz, List.length_map]
  simp only [sig_decode]
  have hgetc : (c_tilde ++ ZF ++ HB).take lambda_div4 = c_tilde := by
    rw [show c_tilde ++ ZF ++ HB = c_tilde ++ (ZF ++ HB) from by simp [List.append_assoc]]
    exact List.take_left' hct
  have hzslice : (List.range z.length).map (fun i =>
      bit_unpack (((c_tilde ++ ZF ++ HB).drop (lambda_div4 + i * P)).take P)
        (gamma1 - 1) gamma1)
      = z.map fun q => bit_unpack (bit_pack q (gamma1 - 1) gamma1) (gamma1 - 1) gamma1 := by
    have hgen := decode_slices_pre c_tilde (z.map fun x => bit_pack x (gamma1 - 1) gamma1)
      HB P (fun bs => bit_unpack bs (gamma1 - 1) gamma1) hcz
      (fun i => lambda_div4 + i * P) (fun i => by rw [hct])
    rw [List.length_map] at hgen
    calc (List.range z.length).map (fun i =>
        bit_unpack (((c_tilde ++ ZF ++ HB).drop (lambda_div4 + i * P)).take P)
          (gamma1 - 1) gamma1)
        = (z.map fun x => bit_pack x (gamma1 - 1) gamma1).map
            (fun bs => bit_unpack bs (gamma1 - 1) gamma1) := by
          rw [← hgen]
          exact List.map_congr_left fun i _ => by
            rw [show c_tilde ++ ZF ++ HB = c_tilde ++ (ZF ++ HB) from by
              simp [List.append_assoc], hZF]
      _ = z.map fun q => bit_unpack (bit_pack q (gamma1 - 1) gamma1) (gamma1 - 1) gamma1 := by
          rw [List.map_map]
          rfl
  have hrtz : (z.map fun q => bit_unpack (bit_pack q (gamma1 - 1) gamma1) (gamma1 - 1) gamma1)
      = z := by
    rw [show z = z.map id from (List.map_id z).symm]
    simp only [List.map_map]
    refine List.map_congr_left fun q hq => ?_
    simp only [Function.comp_apply, id]
    exact bit_unpack_pack q _ _ (hzl q hq) (by linarith) (hzr q hq)
  have hdroph : (c_tilde ++ ZF ++ HB).drop (lambda_div4 + z.length * P) = HB := by
    rw [show c_tilde ++ ZF ++ HB = (c_tilde ++ ZF) ++ HB from by simp [List.append_assoc]]
    exact List.drop_left' (by rw [List.length_append, hct, hZFlen])
  rw [hgetc, hzslice, hrtz, hdroph, hunpack]

end Fips204

namespace Fips204

/-! ### Claim C7: malformed hint encodings are rejected -/

theorem mem_range_drop_rev {n m j : Nat} (h1 : m ≤ j) (h2 : j < n) :
    j ∈ (List.range n).drop m := by
  refine List.mem_iff_getElem.mpr ⟨j - m, ?_, ?_⟩
  · simp only [List.length_drop, List.length_range]
    omega
  · rw [List.getElem_drop, List.getElem_range]
    omega

theorem all_zero_of_range_drop (y : List Nat) (omega idx : Nat)
    (h : (((List.range omega).drop idx).all fun j => y.getD j 0 == 0) = true) :
    ∀ j, idx ≤ j → j < omega → y.getD j 0 = 0 := by
  intro j h1 h2
  have := List.all_eq_true.mp h j (mem_range_drop_rev h1 h2)
  simpa using this

/-- Success of `hint_bit_unpack_go` forces, positionally on
`idx :: bounds`: monotone boundaries, boundaries `≤ ω`, strictly
increasing index segments, and zero padding after the last boundary. -/
theorem go_ok_inv (y : List Nat) (omega : Nat) :
    ∀ (bounds : List Nat) (idx : Nat) (hs : List (List Int)),
    hint_bit_unpack_go y omega bounds idx = .ok hs →
    (∀ i, i < bounds.length → (idx :: bounds).getD i 0 ≤ bounds.getD i 0) ∧
    (∀ i, i < bounds.length → bounds.getD i 0 ≤ omega) ∧
    (∀ i, i < bounds.length →
      strictIncrB ((y.take (bounds.getD i 0)).drop ((idx :: bounds).getD i 0)) = true) ∧
    (∀ j, (idx :: bounds).getD bounds.length 0 ≤ j → j < omega → y.getD j 0 = 0) := by
  intro bounds
  induction bounds with
  | nil =>
      intro idx hs hok
      simp only [hint_bit_unpack_go] at hok
      split at hok
      case isTrue hall =>
        refine ⟨fun i hi => absurd hi (by simp), fun i hi => absurd hi (by simp),
          fun i hi => absurd hi (by simp), ?_⟩
        exact all_zero_of_range_drop y omega idx hall
      case isFalse => cases hok
  | cons bound rest ih =>
      intro idx hs hok
      simp only [hint_bit_unpack_go] at hok
      split at hok
      case isTrue => cases hok
      case isFalse hcond =>
        simp only [Bool.or_eq_true, decide_eq_true_eq, not_or] at hcond
        obtain ⟨hnlt, hnbig⟩ := hcond
        split at hok
        case isFalse => cases hok
        case isTrue hseg =>
          cases hrec : hint_bit_unpack_go y omega rest bound with
          | error e => rw [hrec] at hok; cases hok
          | ok hs' =>
              rw [hrec] at hok
              obtain ⟨hA, hB, hC, hD⟩ := ih bound hs' hrec
              refine ⟨?_, ?_, ?_, ?_⟩
              · intro i hi
                cases i with
                | zero => simpa using Nat.le_of_not_lt hnlt
                | succ i' => exact hA i' (by simpa using hi)
              · intro i hi
                cases i with
                | zero => simpa using Nat.le_of_not_lt hnbig
                | succ i' => exact hB i' (by simpa using hi)
              · intro i hi
                cases i with
                | zero => simpa using hseg
                | succ i' => exact hC i' (by simpa using hi)
              · intro j hj1 hj2
                refine hD j ?_ hj2
                simpa using hj1

end Fips204

namespace Fips204

theorem getD_take_drop (y : List Nat) (omega K i : Nat) (hi : i < K)
    (hlen : y.length = omega + K) :
    ((y.drop omega).take K).getD i 0 = y.getD (omega + i) 0 := by
  have h1 : i < ((y.drop omega).take K).length := by
    simp only [List.length_take, List.length_drop, hlen]
    omega
  have h2 : omega + i < y.length := by omega
  rw [List.getD_eq_getElem _ _ h1, List.getD_eq_getElem _ _ h2]
  rw [List.getElem_take, List.getElem_drop]

/-- C7: a signature byte string of the correct length whose hint portion
violates any of the four structural conditions (a)-(d) of
`hintViolation` makes `sig_decode` (via `HintBitUnpack`) return an
error rather than succeed. -/
theorem C7_sig_decode_rejects_bad_hints (gamma1 : Int) (omega K L lambda_div4 : Nat)
    (sigma : List Nat)
    (hlen : sigma.length
      = lambda_div4 + L * (32 * (bit_length (gamma1 - 1) + 1)) + (omega + K))
    (hviol : hintViolation omega K
      (sigma.drop (lambda_div4 + L * (32 * (bit_length (gamma1 - 1) + 1))))) :
    ∃ e, sig_decode gamma1 omega K L lambda_div4 sigma = .error e := by
  set y := sigma.drop (lambda_div4 + L * (32 * (bit_length (gamma1 - 1) + 1))) with hy
  have hylen : y.length = omega + K := by
    rw [hy, List.length_drop, hlen]
    omega
  simp only [sig_decode]
  cases hhu : hint_bit_unpack omega K y with
  | error e => exact ⟨e, rfl⟩
  | ok hh =>
      exfalso
      unfold hint_bit_unpack at hhu
      obtain ⟨hA, hB, hC, hD⟩ := go_ok_inv y omega ((y.drop omega).take K) 0 hh hhu
      have hblen : ((y.drop omega).take K).length = K := by
        simp only [List.length_take, List.length_drop, hylen]
        omega
      have hbget : ∀ i, i < K → ((y.drop omega).take K).getD i 0 = y.getD (omega + i) 0 :=
        fun i hi => getD_take_drop y omega K i hi hylen
      have hcget : ∀ i, i < K → (0 :: (y.drop omega).take K).getD i 0
          = if i = 0 then 0 else y.getD (omega + i - 1) 0 := by
        intro i hi
        cases i with
        | zero => rfl
        | succ i' =>
            have h1 : (0 :: (y.drop omega).take K).getD (i' + 1) 0
                = ((y.drop omega).take K).getD i' 0 := rfl
            rw [h1, hbget i' (by omega), if_neg (Nat.succ_ne_zero i')]
            congr 1
      rcases hviol with ⟨i, hi1, hi2, hlt⟩ | ⟨i, hi, hbig⟩ | ⟨hK, j, hj1, hj2, hj3⟩ |
        ⟨i, hi, hbad⟩
      · have h1 := hA i (by omega)
        rw [hbget i hi2] at h1
        rw [hcget i hi2, if_neg (by omega)] at h1
        omega
      · have h1 := hB i (by omega)
        rw [hbget i hi] at h1
        omega
      · have hlast : (0 :: (y.drop omega).take K).getD K 0 = y.getD (omega + K - 1) 0 := by
          cases K with
          | zero => exact absurd hK (by omega)
          | succ K' =>
              have h1 : (0 :: (y.drop omega).take (K' + 1)).getD (K' + 1) 0
                  = ((y.drop omega).take (K' + 1)).getD K' 0 := rfl
              rw [h1, getD_take_drop y omega (K' + 1) K' (by omega) hylen]
              congr 1
        rw [hblen] at hD
        have h1 := hD j (by rw [hlast]; exact hj1) hj2
        exact hj3 h1
      · have h1 := hC i (by omega)
        rw [hbget i hi, hcget i hi] at h1
        rw [h1] at hbad
        cases hbad

/-- Witness for C7 at γ1 = 1, ω = 2, k = 1, ℓ = 0, λ/4 = 0 and the
3-byte signature `[0, 0, 3]`, whose single hint boundary byte 3 exceeds
ω = 2 (violation (b)). -/
theorem C7_sig_decode_rejects_bad_hints_witness :
    ∃ e, sig_decode 1 2 1 0 0 [0, 0, 3] = Except.error e :=
  C7_sig_decode_rejects_bad_hints 1 2 1 0 0 [0, 0, 3] (by decide)
    (Or.inr (Or.inl ⟨0, by decide, by decide⟩))

/-- C6 (corrected): the spec says a correct-length signature that fails
to decode makes verification return `false`; the code instead propagates
the decode error as `Err`, per the in-tree contract of
`Verifier::try_verify` (`src/traits.rs`: "Returns an error on a
malformed signature") and the in-tree test `forever`
(`tests/integration.rs`), which must guard `ver.is_ok()` before reading
the verdict of a corrupted signature.  Amended claim: whenever the
public key decodes and the signature fails to decode, `try_verify`
returns that decode error (never `Ok(false)`), for every abstracted
hash-and-compare remainder `rest`. -/
theorem C6_try_verify_propagates_decode_error
    (rest : List Nat × List (List Int) →
      List Nat × List (List Int) × Option (List (List Int)) → Bool)
    (gamma1 : Int) (omega K L lambda_div4 : Nat) (pk sigma : List Nat)
    (d1 : List Nat × List (List Int)) (h1 : pk_decode K pk = .ok d1)
    (e : String) (h2 : sig_decode gamma1 omega K L lambda_div4 sigma = .error e) :
    try_verify rest gamma1 omega K L lambda_div4 pk sigma = .error e := by
  simp only [try_verify, h1, h2]
  rfl

set_option maxRecDepth 20000 in
/-- Witness for C6 at ML-DSA-44 sizes: the all-zero 1312-byte public
key decodes, and the 2420-byte signature whose hint boundary bytes are
81 > ω = 80 fails `sig_decode`, so `try_verify` surfaces that error. -/
theorem C6_try_verify_propagates_decode_error_witness :
    try_verify (fun _ _ => false) (2 ^ 17) 80 4 4 32 (List.replicate 1312 0)
      (List.replicate 2416 0 ++ [81, 81, 81, 81])
      = Except.error "Alg15: bad boundary" :=
  C6_try_verify_propagates_decode_error (fun _ _ => false) (2 ^ 17) 80 4 4 32
    (List.replicate 1312 0) (List.replicate 2416 0 ++ [81, 81, 81, 81]) _ rfl _ rfl

set_option maxRecDepth 20000 in
/-- Counterexample to C7's spec sentence as read for C6: on a
correct-length ML-DSA-44 signature whose hint encoding is malformed
(boundary byte 81 > ω = 80) and a well-formed public key, `try_verify`
returns an error, not the value `false`. -/
theorem C6_decode_failure_yields_error_not_false :
    try_verify (fun _ _ => true) (2 ^ 17) 80 4 4 32 (List.replicate 1312 0)
      (List.replicate 2416 0 ++ [81, 81, 81, 81])
      = Except.error "Alg15: bad boundary" := rfl

set_option maxRecDepth 2000 in
/-- Witness for C4 at ρ = 0^32 and t1 a single all-zero polynomial. -/
theorem C4_pk_roundtrip_witness :
    ∃ pk, pk_encode (List.replicate 32 0) [List.replicate 256 0] = .ok pk ∧
      pk_decode [List.replicate 256 (0 : Int)].length pk
        = .ok (List.replicate 32 0, [List.replicate 256 0]) :=
  C4_pk_roundtrip (List.replicate 32 0) [List.replicate 256 0] rfl
    (fun t ht => by rw [List.mem_singleton] at ht; subst ht; rfl)
    (fun t ht x hx => by
      rw [List.mem_singleton] at ht
      subst ht
      rw [List.eq_of_mem_replicate hx]
      decide)

set_option maxRecDepth 2000 in
/-- Witness for C5 at η = 1 with all-zero key components. -/
theorem C5_sk_roundtrip_witness :
    ∃ sk, sk_encode 1 (List.replicate 32 0) (List.replicate 32 0) (List.replicate 64 0)
        [List.replicate 256 0] [List.replicate 256 0] [List.replicate 256 0] = .ok sk ∧
      sk_decode 1 1 1 sk
        = .ok (List.replicate 32 0, List.replicate 32 0, List.replicate 64 0,
            [List.replicate 256 0], [List.replicate 256 0], [List.replicate 256 0]) :=
  C5_sk_roundtrip 1 (by decide) (List.replicate 32 0) (List.replicate 32 0)
    (List.replicate 64 0) [List.replicate 256 0] [List.replicate 256 0]
    [List.replicate 256 0] rfl rfl rfl
    (fun p hp => by rw [List.mem_singleton] at hp; subst hp; rfl)
    (fun p hp x hx => by
      rw [List.mem_singleton] at hp
      subst hp
      rw [List.eq_of_mem_replicate hx]
      decide)
    (fun p hp => by rw [List.mem_singleton] at hp; subst hp; rfl)
    (fun p hp x hx => by
      rw [List.mem_singleton] at hp
      subst hp
      rw [List.eq_of_mem_replicate hx]
      decide)
    (fun p hp => by rw [List.mem_singleton] at hp; subst hp; rfl)
    (fun p hp x hx => by
      rw [List.mem_singleton] at hp
      subst hp
      rw [List.eq_of_mem_replicate hx]
      decide)
    rfl

set_option maxRecDepth 2000 in
/-- Witness for C3 at γ1 = 2, ω = 2, λ/4 = 1 with a one-byte
commitment hash, one all-zero `z` polynomial and one all-zero hint
polynomial. -/
theorem C3_sig_roundtrip_witness :
    ∃ sigma, sig_encode 2 2 [0] [List.replicate 256 0] [List.replicate 256 0]
        = .ok sigma ∧
      sig_decode 2 2 1 1 1 sigma
        = .ok ([0], [List.replicate 256 0], some [List.replicate 256 0]) :=
  C3_sig_roundtrip 2 (by decide) 2 1 [0] [List.replicate 256 0] [List.replicate 256 0]
    rfl
    (fun p hp => by rw [List.mem_singleton] at hp; subst hp; rfl)
    (fun p hp x hx => by
      rw [List.mem_singleton] at hp
      subst hp
      rw [List.eq_of_mem_replicate hx]
      decide)
    (fun p hp => by
      rw [List.mem_singleton] at hp
      subst hp
      exact ⟨rfl, fun x hx => Or.inl (List.eq_of_mem_replicate hx)⟩)
    (by decide)

set_option maxRecDepth 2000 in
/-- Witness for C8 at γ1 = 2^1, ω = 2, k = ℓ = 1, λ/4 = 0 and the
all-zero 67-byte signature, which `sig_decode` accepts. -/
theorem C8_sig_decode_z_range_witness :
    ∃ c z h, sig_decode 2 2 1 1 0 (List.replicate 67 0) = .ok (c, z, h) ∧
      ∀ p ∈ z, ∀ x ∈ p, -((2 : Int) - 1) ≤ x ∧ x ≤ 2 :=
  ⟨_, _, _, rfl, C8_sig_decode_z_range 2 1 rfl 2 1 1 0 (List.replicate 67 0) _ _ _ rfl⟩

end Fips204
